import Mathlib

/-!
# Verification of the Market-Microstructure hybrid L2/L3 order-book engine

A shallow embedding of the C++ sources of the repository
(`src/engine/order_book/Order.h`, `src/engine/order_book/OrderBook.cpp`,
`src/engine/strategy/Strategy.cpp`, `src/engine/io/EventReader.cpp`)
into Lean 4, together with proofs and refutations of the specified
properties.

Modelling conventions:
* C++ `double` values (prices, quantities, volumes, PnL) are modelled as
  exact rationals `ℚ`; the epsilon constants `1e-8` and `1e-6` of the
  source are carried over literally.
* `std::map<double, Limit, Cmp>` is modelled as an association list
  `List (ℚ × Limit)` kept in the iteration order of the map (bids:
  descending keys, asks: ascending keys); `find`, `erase`, `operator[]`
  insertion and in-order iteration are modelled by the corresponding
  list functions below.
* `std::deque<Order>` is a `List Order` (front = index 0 = oldest).
* `uint64_t` ids and timestamps are modelled as `Nat` (no overflow issues
  arise for the properties below; the id counter only increments by one).
* `std::cerr` diagnostics are not part of the book state; the source has
  no corruption flag stored in the state, so none appears in the model.
-/

namespace lob

/-- `1e-8`, the delta / emptiness epsilon of the source. -/
def EPS8 : ℚ := 1 / 100000000

/-- `1e-6`, the invariant-sum epsilon of the source. -/
def EPS6 : ℚ := 1 / 1000000

/-- `enum class Side` from `Order.h`. -/
inductive Side where
  | BID : Side
  | ASK : Side
deriving DecidableEq, Repr

/-- `struct Order` from `Order.h`: one synthetic L3 order. -/
structure Order where
  order_id : Nat
  price : ℚ
  quantity : ℚ
  side : Side
  timestamp : Nat
deriving DecidableEq, Repr

/-- `struct Limit` from `Order.h`: one price level with its FIFO queue. -/
structure Limit where
  price : ℚ
  total_volume : ℚ
  order_count : Nat
  orders : List Order
deriving DecidableEq, Repr

/-- `Limit(double p)` constructor: empty level at price `p`. -/
def Limit.init (p : ℚ) : Limit :=
  { price := p, total_volume := 0, order_count := 0, orders := [] }

/-- `Limit::add_synthetic_order`: append a synthetic order at the back of
the queue, add its quantity to the aggregate volume, refresh the count. -/
def Limit.add_synthetic_order (l : Limit) (oid : Nat) (qty : ℚ) (s : Side)
    (ts : Nat) : Limit :=
  let orders := l.orders ++ [⟨oid, l.price, qty, s, ts⟩]
  { l with orders := orders
           total_volume := l.total_volume + qty
           order_count := orders.length }

/-- The loop body of `Limit::reduce_volume_fifo`: consume `qty_to_remove`
from the front of the queue while `qty_to_remove > 1e-8` and the queue is
non-empty; whole orders whose quantity is `≤` the remaining amount are
popped, otherwise the front order is partially reduced.  Returns the
amount actually removed together with the remaining queue. -/
def reduceFifo (qty_to_remove : ℚ) : List Order → ℚ × List Order
  | [] => (0, [])
  | o :: rest =>
    if qty_to_remove ≤ EPS8 then (0, o :: rest)
    else if o.quantity ≤ qty_to_remove then
      let r := reduceFifo (qty_to_remove - o.quantity) rest
      (o.quantity + r.1, r.2)
    else (qty_to_remove, { o with quantity := o.quantity - qty_to_remove } :: rest)

/-- `Limit::reduce_volume_fifo`: run the FIFO-reduction loop, subtract the
amount actually removed from the aggregate volume, refresh the count.
Returns (removed, updated level). -/
def Limit.reduce_volume_fifo (l : Limit) (qty : ℚ) : ℚ × Limit :=
  let r := reduceFifo qty l.orders
  (r.1, { l with orders := r.2
                 total_volume := l.total_volume - r.1
                 order_count := r.2.length })

/-- Sum of the queue quantities of a level (the quantity `sum` computed by
`Limit::validate_invariants`). -/
def Limit.queueSum (l : Limit) : ℚ :=
  (l.orders.map Order.quantity).sum

/-- The four assertions of `Limit::validate_invariants`, stated as the spec
states them: queue-sum within `1e-6` of the aggregate volume, non-negative
quantities, empty-iff-near-zero-volume, count = queue length. -/
def Limit.invariantsHold (l : Limit) : Prop :=
  |l.queueSum - l.total_volume| < EPS6 ∧
  (∀ o ∈ l.orders, 0 ≤ o.quantity) ∧
  (l.orders = [] ↔ l.total_volume < EPS8) ∧
  l.order_count = l.orders.length

instance (l : Limit) : Decidable l.invariantsHold := by
  unfold Limit.invariantsHold
  infer_instance

/-! ## The side maps

`std::map<double, Limit, std::greater<double>>` (bids) and
`std::map<double, Limit, std::less<double>>` (asks), modelled as
association lists in iteration order. -/

/-- One side of the book in map-iteration order. -/
abbrev SideMap := List (ℚ × Limit)

/-- `map::find` by key. -/
def mapFind (price : ℚ) : SideMap → Option Limit
  | [] => none
  | (k, v) :: rest => if price = k then some v else mapFind price rest

/-- `map::erase(key)`. -/
def mapErase (price : ℚ) (m : SideMap) : SideMap :=
  m.filter (fun kv => kv.1 ≠ price)

/-- In-place mutation through the iterator returned by `map::find`. -/
def mapModify (price : ℚ) (f : Limit → Limit) : SideMap → SideMap
  | [] => []
  | (k, v) :: rest =>
    if price = k then (k, f v) :: rest else (k, v) :: mapModify price f rest

/-- `map[key] = value` for a key kept in the order of the comparator
`lt` (the entry is placed before every key `k` with `lt price k`). -/
def mapInsert (lt : ℚ → ℚ → Bool) (price : ℚ) (v : Limit) : SideMap → SideMap
  | [] => [(price, v)]
  | (k, w) :: rest =>
    if price = k then (price, v) :: rest
    else if lt price k then (price, v) :: (k, w) :: rest
    else (k, w) :: mapInsert lt price v rest

/-- `std::greater<double>`: bid iteration order (descending prices). -/
def bidBefore (a b : ℚ) : Bool := decide (b < a)

/-- `std::less<double>`: ask iteration order (ascending prices). -/
def askBefore (a b : ℚ) : Bool := decide (a < b)

/-! ## The order book -/

/-- `class OrderBook`: symbol, synthetic-order-id counter, both sides. -/
structure OrderBook where
  symbol : String
  next_order_id : Nat
  bids : SideMap
  asks : SideMap
deriving DecidableEq, Repr

/-- `OrderBook(symbol)`: empty book, id counter starts at 1. -/
def OrderBook.init (symbol : String) : OrderBook :=
  { symbol := symbol, next_order_id := 1, bids := [], asks := [] }

/-- The shared body of the two branches of `OrderBook::add_order` (the
C++ repeats the same code once for `bids_` with `std::greater` and once
for `asks_` with `std::less`): on an existing level the delta
`quantity - old_volume` decides between appending a synthetic order
(`delta > 1e-8`), FIFO reduction (`delta < -1e-8`) and no change; a fresh
level gets a single synthetic order carrying the full quantity.  Returns
the updated side map together with the updated id counter. -/
def addToSide (lt : ℚ → ℚ → Bool) (m : SideMap) (nid : Nat) (price qty : ℚ)
    (side : Side) (ts : Nat) : SideMap × Nat :=
  match mapFind price m with
  | some lim =>
    let delta := qty - lim.total_volume
    if EPS8 < delta then
      (mapModify price (fun l => l.add_synthetic_order nid (qty - l.total_volume) side ts) m,
       nid + 1)
    else if delta < -EPS8 then
      (mapModify price (fun l => (l.reduce_volume_fifo (-(qty - l.total_volume))).2) m, nid)
    else (m, nid)
  | none =>
    ((mapInsert lt price ((Limit.init price).add_synthetic_order nid qty side ts) m), nid + 1)

/-- `OrderBook::add_order` (hybrid L2/L3 delta semantics). -/
def OrderBook.add_order (b : OrderBook) (price qty : ℚ) (side : Side)
    (ts : Nat) : OrderBook :=
  match side with
  | Side.BID =>
    let r := addToSide bidBefore b.bids b.next_order_id price qty Side.BID ts
    { b with bids := r.1, next_order_id := r.2 }
  | Side.ASK =>
    let r := addToSide askBefore b.asks b.next_order_id price qty Side.ASK ts
    { b with asks := r.1, next_order_id := r.2 }

/-- `OrderBook::clear_price_level`: erase the level at `price` on `side`. -/
def OrderBook.clear_price_level (b : OrderBook) (price : ℚ) (side : Side) :
    OrderBook :=
  match side with
  | Side.BID => { b with bids := mapErase price b.bids }
  | Side.ASK => { b with asks := mapErase price b.asks }

/-- `OrderBook::get_best_bid`: key of the first bid entry, if any. -/
def OrderBook.get_best_bid (b : OrderBook) : Option ℚ :=
  b.bids.head?.map Prod.fst

/-- `OrderBook::get_best_ask`: key of the first ask entry, if any. -/
def OrderBook.get_best_ask (b : OrderBook) : Option ℚ :=
  b.asks.head?.map Prod.fst

/-- The repair branch of `OrderBook::validate_book_integrity`: erase all
bid levels strictly above the cutoff (the old best ask) from the front of
the bid map; then, when a best bid remains, erase all ask levels strictly
below it from the front of the ask map (the C++ recomputes
`get_best_bid()` after the bid trim and skips the ask loop when it is
absent). -/
def OrderBook.repair_crossed (b : OrderBook) (cutoff : ℚ) : OrderBook :=
  match (b.bids.dropWhile (fun kv => decide (cutoff < kv.1))).head?.map Prod.fst with
  | some nbb =>
    { b with bids := b.bids.dropWhile (fun kv => decide (cutoff < kv.1)),
             asks := b.asks.dropWhile (fun kv => decide (kv.1 < nbb)) }
  | none => { b with bids := b.bids.dropWhile (fun kv => decide (cutoff < kv.1)) }

/-- `OrderBook::validate_book_integrity`: when both sides are non-empty and
the book is strictly crossed (`best_bid > best_ask`), run the repair; the
equality case `best_bid == best_ask` is explicitly tolerated.  (The source
performs the repair through `const_cast` from inside a `const` method and
writes warnings to `std::cerr`; the state transformation is modelled, the
diagnostics are not state.) -/
def OrderBook.validate_book_integrity (b : OrderBook) : OrderBook :=
  match b.get_best_bid, b.get_best_ask with
  | some bb, some ba => if ba < bb then b.repair_crossed ba else b
  | _, _ => b

/-- `OrderBook::update_order` (Binance L2 update semantics): zero or
near-zero quantity removes the level immediately; otherwise delta-based
`add_order` followed by `validate_book_integrity`. -/
def OrderBook.update_order (b : OrderBook) (price qty : ℚ) (side : Side)
    (ts : Nat) : OrderBook :=
  if qty = 0 ∨ |qty| < EPS8 then b.clear_price_level price side
  else (b.add_order price qty side ts).validate_book_integrity

/-- `OrderBook::get_bid_volume`. -/
def OrderBook.get_bid_volume (b : OrderBook) (price : ℚ) : ℚ :=
  match mapFind price b.bids with
  | some lim => lim.total_volume
  | none => 0

/-- `OrderBook::get_ask_volume`. -/
def OrderBook.get_ask_volume (b : OrderBook) (price : ℚ) : ℚ :=
  match mapFind price b.asks with
  | some lim => lim.total_volume
  | none => 0

/-- `OrderBook::get_orders_at_price`: the queue at a level, or the empty
queue when the level is absent. -/
def OrderBook.get_orders_at_price (b : OrderBook) (price : ℚ) (side : Side) :
    List Order :=
  match side with
  | Side.BID =>
    match mapFind price b.bids with
    | some lim => lim.orders
    | none => []
  | Side.ASK =>
    match mapFind price b.asks with
    | some lim => lim.orders
    | none => []

/-- `OrderBook::get_total_bid_volume`: sum of the aggregate volumes of the
first `depth` bid levels in iteration order. -/
def OrderBook.get_total_bid_volume (b : OrderBook) (depth : Nat) : ℚ :=
  ((b.bids.take depth).map (fun kv => kv.2.total_volume)).sum

/-- `OrderBook::get_total_ask_volume`. -/
def OrderBook.get_total_ask_volume (b : OrderBook) (depth : Nat) : ℚ :=
  ((b.asks.take depth).map (fun kv => kv.2.total_volume)).sum

/-- `OrderBook::calculate_imbalance`. -/
def OrderBook.calculate_imbalance (b : OrderBook) (depth : Nat) : ℚ :=
  let bid_volume := b.get_total_bid_volume depth
  let ask_volume := b.get_total_ask_volume depth
  let total_volume := bid_volume + ask_volume
  if total_volume < EPS8 then 0 else (bid_volume - ask_volume) / total_volume

/-- `OrderBook::clear`: empty both sides, reset the id counter to 1. -/
def OrderBook.clear (b : OrderBook) : OrderBook :=
  { b with bids := [], asks := [], next_order_id := 1 }

/-! ## Update sequences -/

/-- One `update_order` call (price, quantity, side, timestamp). -/
structure Update where
  price : ℚ
  quantity : ℚ
  side : Side
  ts : Nat
deriving DecidableEq, Repr

/-- Apply a sequence of `update_order` calls from left to right. -/
def applyUpdates (b : OrderBook) (l : List Update) : OrderBook :=
  l.foldl (fun b u => b.update_order u.price u.quantity u.side u.ts) b

/-- All levels present anywhere in the book. -/
def OrderBook.allLimits (b : OrderBook) : List Limit :=
  (b.bids ++ b.asks).map Prod.snd

/-- The level stored at `price` on `side`, when present (presence of the
key in `bids_` resp. `asks_`). -/
def OrderBook.findLevel (b : OrderBook) (price : ℚ) (side : Side) :
    Option Limit :=
  match side with
  | Side.BID => mapFind price b.bids
  | Side.ASK => mapFind price b.asks

/-! ## Strategy position/PnL bookkeeping (`Strategy.cpp`) -/

/-- The position/PnL state mutated by `Strategy::update_position`. -/
structure StrategyState where
  position : ℚ
  pnl : ℚ
  avg_entry_price : ℚ
deriving DecidableEq, Repr

/-- `Strategy::update_position(quantity, price)`: when the prior position
is nonzero, realize `-quantity * (price - avg_entry_price)` into PnL;
then form the new position; then either blend the average entry price
(position-weighted) or, when the new position is within `1e-8` of zero,
reset it to zero. -/
def StrategyState.update_position (s : StrategyState) (quantity price : ℚ) :
    StrategyState :=
  let pnl := if s.position ≠ 0 then s.pnl + (-quantity * (price - s.avg_entry_price))
             else s.pnl
  let new_position := s.position + quantity
  let aep := if EPS8 < |new_position| then
      (s.position * s.avg_entry_price + quantity * price) / new_position
    else 0
  { position := new_position, pnl := pnl, avg_entry_price := aep }

/-! ## Event reading (`EventReader.cpp`)

The line is a `String`; tokenization and the numeric field parsers work on
`List Char` so that every definition is structurally recursive.  The
numeric parsers model the decimal fragment of `std::stoull` / `std::stod`
(optional leading whitespace, optional sign, digits, for `stod` an
optional fractional part and decimal exponent); the hexadecimal /
infinity / NaN forms of `strtod` and the `out_of_range` overflow of
`stod` are outside the inputs any theorem below touches. -/

/-- Parsed event record (`struct Event`, default-constructed fields). -/
structure Event where
  exchange_seq : Nat
  exchange_ts : Nat
  local_ts : Nat
  event_type : String
  price : ℚ
  quantity : ℚ
  side : Side
deriving DecidableEq, Repr

/-- The default-constructed `Event`. -/
def Event.init : Event :=
  { exchange_seq := 0, exchange_ts := 0, local_ts := 0, event_type := "",
    price := 0, quantity := 0, side := Side.BID }

/-- The whitespace set of `isspace` in the C locale. -/
def isCppSpace (c : Char) : Bool :=
  c == ' ' || c == '\t' || c == '\n' || c == '\x0b' || c == '\x0c' || c == '\r'

/-- Value of a digit string, most significant first. -/
def digitsToNat (ds : List Char) : Nat :=
  ds.foldl (fun acc c => acc * 10 + (c.toNat - 48)) 0

/-- `std::stoull` on the token: skip whitespace, optional sign (a minus
sign wraps modulo `2^64` as `strtoull` does), then a non-empty digit run;
no digits means `std::invalid_argument`, a value beyond `2^64` means
`std::out_of_range`, both caught by the reader as a parse failure. -/
def stoullChars (cs0 : List Char) : Option Nat :=
  let cs := cs0.dropWhile isCppSpace
  let signed : Bool × List Char :=
    match cs with
    | '-' :: r => (true, r)
    | '+' :: r => (false, r)
    | r => (false, r)
  let ds := signed.2.takeWhile Char.isDigit
  if ds.isEmpty then none
  else
    let v := digitsToNat ds
    if 2 ^ 64 ≤ v then none
    else some (if signed.1 then (2 ^ 64 - v) % 2 ^ 64 else v)

/-- Decimal exponent part of a `strtod` token (`e`/`E`, optional sign,
digits); an incomplete exponent is ignored, as `strtod` backs up to the
longest valid prefix. -/
def expoPart (cs : List Char) : Int :=
  match cs with
  | c :: rest =>
    if c == 'e' || c == 'E' then
      let signed : Bool × List Char :=
        match rest with
        | '-' :: r => (true, r)
        | '+' :: r => (false, r)
        | r => (false, r)
      let ds := signed.2.takeWhile Char.isDigit
      if ds.isEmpty then 0
      else if signed.1 then -(digitsToNat ds : Int) else (digitsToNat ds : Int)
    else 0
  | [] => 0

/-- Character-level scan of a `strtod` token (decimal fragment): skip
whitespace, optional sign, digit run, optional fractional digit run,
optional decimal exponent.  Returns the sign, the integer digits, the
fractional digits and the exponent; `none` when no digit was found
(`std::invalid_argument`). -/
def stodScan (cs0 : List Char) : Option (Bool × List Char × List Char × Int) :=
  let cs := cs0.dropWhile isCppSpace
  let signed : Bool × List Char :=
    match cs with
    | '-' :: r => (true, r)
    | '+' :: r => (false, r)
    | r => (false, r)
  let intDs := signed.2.takeWhile Char.isDigit
  let rest1 := signed.2.drop intDs.length
  let frac : List Char × List Char :=
    match rest1 with
    | '.' :: r => (r.takeWhile Char.isDigit, r.drop (r.takeWhile Char.isDigit).length)
    | r => ([], r)
  if intDs.isEmpty ∧ frac.1.isEmpty then none
  else some (signed.1, intDs, frac.1, expoPart frac.2)

/-- The rational value denoted by a scanned decimal token. -/
def decimalValue (neg : Bool) (intDs fracDs : List Char) (e : Int) : ℚ :=
  let mant : ℚ := (digitsToNat (intDs ++ fracDs) : ℚ) / 10 ^ fracDs.length
  let value : ℚ := mant * (10 : ℚ) ^ e
  if neg then -value else value

/-- `std::stod` on the token, restricted to the decimal fragment of
`strtod`: scan, then evaluate; no digits at all means
`std::invalid_argument`, caught by the reader as a parse failure.
Beyond this fragment, `strtod` also accepts hexadecimal (`0x…`) and
infinity/NaN spellings, and `std::stod` throws `std::out_of_range` when
the converted value falls outside the range of `double`; the theorems
about `parse_line` below therefore carry hypotheses (`hexLead` and
`infNanLead` false, magnitude zero or within `[2^-1021, 2^1023]`, safely
inside the normal range of `double`) that confine their statements to
tokens on which this decimal model and `std::stod` agree on acceptance
and value (modulo the file-wide exact-rational reading of `double`). -/
def stodChars (cs0 : List Char) : Option ℚ :=
  match stodScan cs0 with
  | some (neg, intDs, fracDs, e) => some (decimalValue neg intDs fracDs e)
  | none => none

/-- The token, after `strtod` whitespace skipping and an optional sign,
starts with the hexadecimal prefix `0x`/`0X`: on such tokens `strtod`
may parse a hexadecimal number, which the decimal model does not. -/
def hexLead (cs0 : List Char) : Bool :=
  match cs0.dropWhile isCppSpace with
  | '-' :: '0' :: c :: _ => c == 'x' || c == 'X'
  | '+' :: '0' :: c :: _ => c == 'x' || c == 'X'
  | '0' :: c :: _ => c == 'x' || c == 'X'
  | _ => false

/-- The token, after `strtod` whitespace skipping and an optional sign,
starts with a letter that can open the `INF`/`INFINITY`/`NAN` spellings:
on such digit-free tokens `strtod` may still succeed, which the decimal
model does not. -/
def infNanLead (cs0 : List Char) : Bool :=
  match cs0.dropWhile isCppSpace with
  | '-' :: c :: _ => c == 'i' || c == 'I' || c == 'n' || c == 'N'
  | '+' :: c :: _ => c == 'i' || c == 'I' || c == 'n' || c == 'N'
  | c :: _ => c == 'i' || c == 'I' || c == 'n' || c == 'N'
  | [] => false

/-- Split a character list at every pipe, keeping empty segments (the
behaviour of repeated `std::getline(ss, token, const)` before the final
delimiter is accounted for). -/
def splitTokens : List Char → List (List Char)
  | [] => [[]]
  | c :: cs =>
    if c = '|' then [] :: splitTokens cs
    else
      match splitTokens cs with
      | [] => [[c]]
      | t :: ts => (c :: t) :: ts

/-- The token sequence produced by the `while (std::getline(ss, token,
const))` loop of `EventReader::parse_line`: an empty line yields no token,
and a line ending in the delimiter yields no trailing empty token (the
stream hits end-of-input after consuming the final delimiter). -/
def cppTokens (cs : List Char) : List (List Char) :=
  match cs with
  | [] => []
  | _ =>
    let ts := splitTokens cs
    if cs.getLast? = some '|' then ts.dropLast else ts

/-- The `switch (field_idx)` loop body of `EventReader::parse_line`: each
token is parsed according to its index (a thrown conversion error aborts
with no event), indices past 6 are counted but not parsed, and at the end
the event is produced exactly when 7 fields were counted.  The side field
is compared against the literal `BID`; any other token yields `ASK`. -/
def parseFields (ev : Event) (idx : Nat) : List (List Char) → Option Event
  | [] => if idx = 7 then some ev else none
  | tok :: rest =>
    match idx with
    | 0 =>
      match stoullChars tok with
      | some v => parseFields { ev with exchange_seq := v } 1 rest
      | none => none
    | 1 =>
      match stoullChars tok with
      | some v => parseFields { ev with exchange_ts := v } 2 rest
      | none => none
    | 2 =>
      match stoullChars tok with
      | some v => parseFields { ev with local_ts := v } 3 rest
      | none => none
    | 3 => parseFields { ev with event_type := String.mk tok } 4 rest
    | 4 =>
      match stodChars tok with
      | some v => parseFields { ev with price := v } 5 rest
      | none => none
    | 5 =>
      match stodChars tok with
      | some v => parseFields { ev with quantity := v } 6 rest
      | none => none
    | 6 =>
      parseFields
        { ev with side := if tok = ['B', 'I', 'D'] then Side.BID else Side.ASK } 7 rest
    | _ => parseFields ev (idx + 1) rest

/-- `EventReader::parse_line`. -/
def parse_line (line : String) : Option Event :=
  parseFields Event.init 0 (cppTokens line.toList)

/-! ## Observers for the book-level invariants -/

/-- A side map is in the iteration order of its comparator `r` (as
`std::map` guarantees by construction): consecutive keys are related by
`r`, pairwise. -/
def keySorted (r : ℚ → ℚ → Prop) (m : SideMap) : Prop :=
  m.Pairwise (fun x y => r x.1 y.1)

/-- Both sides of the book are in their map iteration order: bids
descending, asks ascending. -/
def OrderBook.ordered (b : OrderBook) : Prop :=
  keySorted (fun a c => c < a) b.bids ∧ keySorted (fun a c => a < c) b.asks

/-- The book is not strictly crossed: whenever both sides are non-empty,
the best bid does not exceed the best ask. -/
def OrderBook.uncrossed (b : OrderBook) : Prop :=
  ∀ bb ba, b.get_best_bid = some bb → b.get_best_ask = some ba → bb ≤ ba

/-- All synthetic-order identifiers present anywhere in the book, in
iteration order. -/
def OrderBook.allOrderIds (b : OrderBook) : List Nat :=
  (b.allLimits.map (fun lim => lim.orders.map Order.order_id)).flatten

/-- The synthetic-order identifiers held by one map entry, in queue
order. -/
def limIds (kv : ℚ × Limit) : List Nat :=
  kv.2.orders.map Order.order_id

/-- The synthetic-order identifiers held by one side, in iteration
order. -/
def sideIds (m : SideMap) : List Nat :=
  (m.map limIds).flatten

/-- The id-counter invariant the book maintains: every identifier in the
book is below the counter, and no identifier occurs twice. -/
def OrderBook.idInv (b : OrderBook) : Prop :=
  (∀ i ∈ b.allOrderIds, i < b.next_order_id) ∧ b.allOrderIds.Nodup

/-- The exact form of the level invariant that non-negative-quantity
update sequences maintain (in the rational model the queue sum matches
the aggregate volume exactly, and queued quantities are strictly
positive); it implies the toleranced `Limit.invariantsHold`. -/
def Limit.exactInv (l : Limit) : Prop :=
  l.queueSum = l.total_volume ∧
  l.order_count = l.orders.length ∧
  (∀ o ∈ l.orders, 0 < o.quantity) ∧
  (l.orders = [] ↔ l.total_volume < EPS8)

/-- Every level of the book, on either side, satisfies the exact level
invariant. -/
def OrderBook.exactLevels (b : OrderBook) : Prop :=
  ∀ kv ∈ b.bids ++ b.asks, kv.2.exactInv

/-! ## General lemmas about the side-map operations -/

/-- Erasing a key makes it absent. -/
theorem mapFind_mapErase (p : ℚ) (m : SideMap) : mapFind p (mapErase p m) = none := by
  induction m with
  | nil => rfl
  | cons kv rest ih =>
    by_cases h : kv.1 = p
    · simpa [mapErase, List.filter_cons, h] using ih
    · simpa [mapErase, List.filter_cons, h, mapFind, Ne.symm h] using ih

/-- The head of `dropWhile p l` falsifies `p`. -/
theorem head?_dropWhile_false {α : Type} (p : α → Bool) (l : List α) (x : α)
    (h : (l.dropWhile p).head? = some x) : p x = false := by
  induction l with
  | nil => simp [List.dropWhile] at h
  | cons a as ih =>
    rw [List.dropWhile_cons] at h
    by_cases hpa : p a
    · rw [if_pos hpa] at h
      exact ih h
    · rw [if_neg hpa] at h
      simp only [List.head?_cons, Option.some.injEq] at h
      subst h
      exact Bool.of_not_eq_true hpa

/-- The best price surviving the bid-side trim of
`validate_book_integrity` does not exceed the cutoff. -/
theorem best_after_bid_trim (c : ℚ) (m : SideMap) (x : ℚ)
    (h : (m.dropWhile (fun kv => decide (c < kv.1))).head?.map Prod.fst = some x) :
    x ≤ c := by
  rcases Option.map_eq_some'.mp h with ⟨kv, hkv, hfst⟩
  have := head?_dropWhile_false _ _ _ hkv
  simp only [decide_eq_false_iff_not, not_lt] at this
  simpa [hfst] using this

/-- The best price surviving the ask-side trim of
`validate_book_integrity` is at least the cutoff. -/
theorem best_after_ask_trim (c : ℚ) (m : SideMap) (x : ℚ)
    (h : (m.dropWhile (fun kv => decide (kv.1 < c))).head?.map Prod.fst = some x) :
    c ≤ x := by
  rcases Option.map_eq_some'.mp h with ⟨kv, hkv, hfst⟩
  have := head?_dropWhile_false _ _ _ hkv
  simp only [decide_eq_false_iff_not, not_lt] at this
  simpa [hfst] using this

/-- After the crossed-book repair, whenever both sides remain non-empty
the best bid does not exceed the best ask — for every input book state. -/
theorem repair_best_le (b : OrderBook) (c bb ba : ℚ)
    (hb : (b.repair_crossed c).get_best_bid = some bb)
    (ha : (b.repair_crossed c).get_best_ask = some ba) : bb ≤ ba := by
  unfold OrderBook.repair_crossed at hb ha
  cases heq : (b.bids.dropWhile (fun kv => decide (c < kv.1))).head?.map Prod.fst with
  | some nbb =>
    simp only [heq] at hb ha
    simp only [OrderBook.get_best_bid, OrderBook.get_best_ask] at hb ha
    have hbb : bb = nbb := by
      rw [hb] at heq
      exact (Option.some.injEq _ _).mp heq
    have h2 : nbb ≤ ba := best_after_ask_trim nbb b.asks ba ha
    exact hbb ▸ h2
  | none =>
    simp only [heq] at hb
    simp only [OrderBook.get_best_bid] at hb
    rw [hb] at heq
    exact absurd heq (by simp)

/-- After `validate_book_integrity`, whenever both sides are non-empty the
best bid does not exceed the best ask — for every input book state. -/
theorem validate_best_le (b : OrderBook) (bb ba : ℚ)
    (hb : b.validate_book_integrity.get_best_bid = some bb)
    (ha : b.validate_book_integrity.get_best_ask = some ba) : bb ≤ ba := by
  cases hbb : b.get_best_bid with
  | none =>
    rw [OrderBook.validate_book_integrity] at hb
    simp only [hbb] at hb
    exact absurd hb (by simp)
  | some bb0 =>
    cases hba : b.get_best_ask with
    | none =>
      rw [OrderBook.validate_book_integrity] at ha
      simp only [hbb, hba] at ha
      exact absurd ha (by simp)
    | some ba0 =>
      rw [OrderBook.validate_book_integrity] at hb ha
      simp only [hbb, hba] at hb ha
      by_cases hc : ba0 < bb0
      · rw [if_pos hc] at hb ha
        exact repair_best_le b ba0 bb ba hb ha
      · rw [if_neg hc] at hb ha
        have e1 : bb0 = bb := (Option.some.injEq _ _).mp (hbb.symm.trans hb)
        have e2 : ba0 = ba := (Option.some.injEq _ _).mp (hba.symm.trans ha)
        rw [← e1, ← e2]
        exact not_lt.mp hc

/-- The head of a list is a member. -/
theorem head?_some_mem {α : Type} {l : List α} {x : α} (h : l.head? = some x) :
    x ∈ l := by
  cases l with
  | nil => cases h
  | cons a t =>
    simp only [List.head?_cons, Option.some.injEq] at h
    simp [← h]

/-- In a pairwise-ordered list, every member is the head or below it. -/
theorem pairwise_head_bound {α : Type} {R : α → α → Prop} {l : List α} {h0 x : α}
    (hp : l.Pairwise R) (hh : l.head? = some h0) (hx : x ∈ l) : x = h0 ∨ R h0 x := by
  cases l with
  | nil => cases hh
  | cons a t =>
    simp only [List.head?_cons, Option.some.injEq] at hh
    subst hh
    rcases List.mem_cons.mp hx with h | h
    · exact Or.inl h
    · exact Or.inr ((List.pairwise_cons.mp hp).1 x h)

/-- `mapModify` leaves the key sequence unchanged. -/
theorem keys_mapModify (p : ℚ) (f : Limit → Limit) (m : SideMap) :
    (mapModify p f m).map Prod.fst = m.map Prod.fst := by
  induction m with
  | nil => rfl
  | cons kv rest ih =>
    by_cases h : p = kv.1
    · simp [mapModify, h]
    · simp [mapModify, h, ih]

/-- `mapModify` preserves the iteration-order invariant. -/
theorem keySorted_mapModify (r : ℚ → ℚ → Prop) (p : ℚ) (f : Limit → Limit)
    (m : SideMap) (hm : keySorted r m) : keySorted r (mapModify p f m) := by
  have h1 := (List.pairwise_map).mpr hm
  rw [← keys_mapModify p f m] at h1
  exact (List.pairwise_map).mp h1

/-- Membership after `mapInsert`: the new entry or an old one. -/
theorem mem_mapInsert (lt : ℚ → ℚ → Bool) (p : ℚ) (v : Limit) (m : SideMap)
    (x : ℚ × Limit) (hx : x ∈ mapInsert lt p v m) : x = (p, v) ∨ x ∈ m := by
  induction m with
  | nil => simpa [mapInsert] using hx
  | cons kv rest ih =>
    rw [mapInsert] at hx
    by_cases h : p = kv.1
    · rw [if_pos h] at hx
      rcases List.mem_cons.mp hx with h1 | h1
      · exact Or.inl h1
      · exact Or.inr (List.mem_cons_of_mem _ h1)
    · rw [if_neg h] at hx
      by_cases h2 : lt p kv.1
      · rw [if_pos h2] at hx
        rcases List.mem_cons.mp hx with h1 | h1
        · exact Or.inl h1
        · exact Or.inr h1
      · rw [if_neg h2] at hx
        rcases List.mem_cons.mp hx with h1 | h1
        · exact Or.inr (h1 ▸ List.mem_cons_self _ _)
        · rcases ih h1 with h3 | h3
          · exact Or.inl h3
          · exact Or.inr (List.mem_cons_of_mem _ h3)

/-- Ordered insertion with the comparator preserves the iteration-order
invariant, for any strict total order `r`. -/
theorem keySorted_mapInsert (r : ℚ → ℚ → Prop) [DecidableRel r]
    (htrans : ∀ a c d, r a c → r c d → r a d)
    (htot : ∀ a c, ¬ r a c → a ≠ c → r c a)
    (p : ℚ) (v : Limit) (m : SideMap) (hm : keySorted r m) :
    keySorted r (mapInsert (fun a c => decide (r a c)) p v m) := by
  induction m with
  | nil => simp [mapInsert, keySorted]
  | cons kv rest ih =>
    rw [keySorted, List.pairwise_cons] at hm
    rw [mapInsert]
    by_cases h : p = kv.1
    · rw [if_pos h]
      rw [keySorted, List.pairwise_cons]
      exact ⟨fun y hy => h ▸ hm.1 y hy, hm.2⟩
    · by_cases h2 : r p kv.1
      · rw [if_neg h, if_pos (by simpa using h2)]
        rw [keySorted, List.pairwise_cons]
        refine ⟨fun y hy => ?_, List.Pairwise.cons hm.1 hm.2⟩
        rcases List.mem_cons.mp hy with h3 | h3
        · exact h3 ▸ h2
        · exact htrans _ _ _ h2 (hm.1 y h3)
      · rw [if_neg h, if_neg (by simpa using h2)]
        rw [keySorted, List.pairwise_cons]
        refine ⟨fun y hy => ?_, ih hm.2⟩
        rcases mem_mapInsert _ _ _ _ y hy with h3 | h3
        · rw [h3]
          exact htot p kv.1 h2 h
        · exact hm.1 y h3

/-- The crossed-book repair preserves iteration order (it only drops a
prefix of each side). -/
theorem ordered_repair (b : OrderBook) (c : ℚ) (hord : b.ordered) :
    (b.repair_crossed c).ordered := by
  rw [OrderBook.repair_crossed]
  cases heq : (b.bids.dropWhile (fun kv => decide (c < kv.1))).head?.map Prod.fst with
  | some nbb =>
    exact ⟨List.Pairwise.sublist (List.dropWhile_sublist _) hord.1,
      List.Pairwise.sublist (List.dropWhile_sublist _) hord.2⟩
  | none =>
    exact ⟨List.Pairwise.sublist (List.dropWhile_sublist _) hord.1, hord.2⟩

/-- `validate_book_integrity` preserves iteration order. -/
theorem ordered_validate (b : OrderBook) (hord : b.ordered) :
    b.validate_book_integrity.ordered := by
  rw [OrderBook.validate_book_integrity]
  cases hbb : b.get_best_bid with
  | none => simpa using hord
  | some bb0 =>
    cases hba : b.get_best_ask with
    | none => simpa using hord
    | some ba0 =>
      simp only
      by_cases hc : ba0 < bb0
      · rw [if_pos hc]
        exact ordered_repair b ba0 hord
      · rw [if_neg hc]
        exact hord

/-- `add_order` preserves iteration order: an existing level is modified
in place (keys unchanged), a fresh level is inserted at its comparator
position. -/
theorem ordered_add_order (b : OrderBook) (hord : b.ordered) (p q : ℚ)
    (s : Side) (t : Nat) : (b.add_order p q s t).ordered := by
  cases s with
  | BID =>
    cases hF : mapFind p b.bids with
    | some lim =>
      simp only [OrderBook.add_order, addToSide, hF]
      split_ifs with h1 h2
      · exact ⟨keySorted_mapModify _ p _ b.bids hord.1, hord.2⟩
      · exact ⟨keySorted_mapModify _ p _ b.bids hord.1, hord.2⟩
      · exact hord
    | none =>
      simp only [OrderBook.add_order, addToSide, hF]
      refine ⟨?_, hord.2⟩
      exact keySorted_mapInsert (fun a c => c < a)
        (fun a c d h1 h2 => lt_trans h2 h1)
        (fun a c h1 h2 => lt_of_le_of_ne (not_lt.mp h1) h2)
        p _ b.bids hord.1
  | ASK =>
    cases hF : mapFind p b.asks with
    | some lim =>
      simp only [OrderBook.add_order, addToSide, hF]
      split_ifs with h1 h2
      · exact ⟨hord.1, keySorted_mapModify _ p _ b.asks hord.2⟩
      · exact ⟨hord.1, keySorted_mapModify _ p _ b.asks hord.2⟩
      · exact hord
    | none =>
      simp only [OrderBook.add_order, addToSide, hF]
      refine ⟨hord.1, ?_⟩
      exact keySorted_mapInsert (fun a c => a < c)
        (fun a c d h1 h2 => lt_trans h1 h2)
        (fun a c h1 h2 => lt_of_le_of_ne (not_lt.mp h1) (Ne.symm h2))
        p _ b.asks hord.2

/-- `clear_price_level` preserves iteration order. -/
theorem ordered_clear_price_level (b : OrderBook) (hord : b.ordered) (p : ℚ)
    (s : Side) : (b.clear_price_level p s).ordered := by
  cases s with
  | BID => exact ⟨List.Pairwise.filter _ hord.1, hord.2⟩
  | ASK => exact ⟨hord.1, List.Pairwise.filter _ hord.2⟩

/-- `update_order` preserves iteration order. -/
theorem ordered_update (b : OrderBook) (hord : b.ordered) (p q : ℚ) (s : Side)
    (t : Nat) : (b.update_order p q s t).ordered := by
  rw [OrderBook.update_order]
  by_cases hq : q = 0 ∨ |q| < EPS8
  · rw [if_pos hq]
    exact ordered_clear_price_level b hord p s
  · rw [if_neg hq]
    exact ordered_validate _ (ordered_add_order b hord p q s t)

/-- Erasing a price level cannot cross the book: the surviving best price
of the touched side is bounded by the old best, which the other side's
best already beat. -/
theorem uncrossed_clear_price_level (b : OrderBook) (hord : b.ordered)
    (hunc : b.uncrossed) (p : ℚ) (s : Side) :
    (b.clear_price_level p s).uncrossed := by
  intro bb ba hb ha
  cases s with
  | BID =>
    simp only [OrderBook.clear_price_level, OrderBook.get_best_bid,
      OrderBook.get_best_ask] at hb ha
    rcases Option.map_eq_some'.mp hb with ⟨kv, hkv, hfst⟩
    have hmem : kv ∈ b.bids := List.mem_of_mem_filter (head?_some_mem hkv)
    cases hB : b.bids with
    | nil => simp [hB] at hmem
    | cons kv0 rest =>
      have hb0 : b.get_best_bid = some kv0.1 := by
        simp [OrderBook.get_best_bid, hB]
      have h2 : kv0.1 ≤ ba := hunc kv0.1 ba hb0 (by
        simpa [OrderBook.get_best_ask] using ha)
      have h1 : kv.1 ≤ kv0.1 := by
        rcases pairwise_head_bound hord.1
            (show b.bids.head? = some kv0 by simp [hB]) hmem with he | hlt
        · exact le_of_eq (congrArg Prod.fst he)
        · exact le_of_lt hlt
      calc bb = kv.1 := hfst.symm
        _ ≤ kv0.1 := h1
        _ ≤ ba := h2
  | ASK =>
    simp only [OrderBook.clear_price_level, OrderBook.get_best_bid,
      OrderBook.get_best_ask] at hb ha
    rcases Option.map_eq_some'.mp ha with ⟨kv, hkv, hfst⟩
    have hmem : kv ∈ b.asks := List.mem_of_mem_filter (head?_some_mem hkv)
    cases hA : b.asks with
    | nil => simp [hA] at hmem
    | cons kv0 rest =>
      have ha0 : b.get_best_ask = some kv0.1 := by
        simp [OrderBook.get_best_ask, hA]
      have h2 : bb ≤ kv0.1 := hunc bb kv0.1 (by
        simpa [OrderBook.get_best_bid] using hb) ha0
      have h1 : kv0.1 ≤ kv.1 := by
        rcases pairwise_head_bound hord.2
            (show b.asks.head? = some kv0 by simp [hA]) hmem with he | hlt
        · exact le_of_eq (congrArg Prod.fst he.symm)
        · exact le_of_lt hlt
      calc bb ≤ kv0.1 := h2
        _ ≤ kv.1 := h1
        _ = ba := hfst

/-- `update_order` always leaves an uncrossed book when it starts from an
ordered uncrossed book: the nonzero path re-establishes the bound through
the integrity check, the zero path only erases. -/
theorem uncrossed_update (b : OrderBook) (hord : b.ordered)
    (hunc : b.uncrossed) (p q : ℚ) (s : Side) (t : Nat) :
    (b.update_order p q s t).uncrossed := by
  rw [OrderBook.update_order]
  by_cases hq : q = 0 ∨ |q| < EPS8
  · rw [if_pos hq]
    exact uncrossed_clear_price_level b hord hunc p s
  · rw [if_neg hq]
    intro bb ba hb ha
    exact validate_best_le _ bb ba hb ha

/-- Every book reachable from the fresh book through `update_order` calls
is ordered and uncrossed. -/
theorem reachable_ordered_uncrossed (sym : String) (l : List Update) :
    (applyUpdates (OrderBook.init sym) l).ordered ∧
      (applyUpdates (OrderBook.init sym) l).uncrossed := by
  induction l using List.reverseRecOn with
  | nil =>
    refine ⟨⟨List.Pairwise.nil, List.Pairwise.nil⟩, ?_⟩
    intro bb ba hb ha
    simp [applyUpdates, OrderBook.init, OrderBook.get_best_bid] at hb
  | append_singleton l u ih =>
    have hstep : applyUpdates (OrderBook.init sym) (l ++ [u])
        = (applyUpdates (OrderBook.init sym) l).update_order u.price u.quantity
            u.side u.ts := by
      simp [applyUpdates, List.foldl_append]
    rw [hstep]
    exact ⟨ordered_update _ ih.1 _ _ _ _, uncrossed_update _ ih.1 ih.2 _ _ _ _⟩

/-- C2 (amended): for every book state — crossed or not, including
`best_bid > best_ask` — a nonzero-quantity `update_order` call runs the
integrity check and leaves a state in which the best bid does not exceed
the best ask whenever both sides are non-empty: a strictly crossed state
is repaired by trimming the offending levels, while `best_bid = best_ask`
is tolerated (the code treats only the strict case as corruption and
keeps no corruption flag; zero-quantity calls skip the check). -/
theorem C2_crossed_book_amended (b : OrderBook) (p q : ℚ) (s : Side) (t : Nat)
    (hq : ¬ (q = 0 ∨ |q| < EPS8)) (bb ba : ℚ)
    (hb : (b.update_order p q s t).get_best_bid = some bb)
    (ha : (b.update_order p q s t).get_best_ask = some ba) : bb ≤ ba := by
  rw [OrderBook.update_order, if_neg hq] at hb ha
  exact validate_best_le _ bb ba hb ha

/-- Witness for C2 (amended): on the book with ask level 100 and bid
levels 99, the strictly crossing bid update at price 102 is repaired
within the same call, leaving best bid 99 ≤ best ask 100. -/
theorem C2_crossed_book_witness :
    ((((OrderBook.init "S").update_order 100 5 Side.ASK 0).update_order 99 5
        Side.BID 1).update_order 102 7 Side.BID 2).get_best_bid = some 99 ∧
    ((((OrderBook.init "S").update_order 100 5 Side.ASK 0).update_order 99 5
        Side.BID 1).update_order 102 7 Side.BID 2).get_best_ask = some 100 ∧
    (99 : ℚ) ≤ 100 := by
  have hb : ((((OrderBook.init "S").update_order 100 5 Side.ASK 0).update_order
      99 5 Side.BID 1).update_order 102 7 Side.BID 2).get_best_bid = some 99 := by
    norm_num [OrderBook.init, OrderBook.update_order, OrderBook.add_order, addToSide,
      mapFind, mapInsert, Limit.add_synthetic_order, Limit.init,
      OrderBook.validate_book_integrity, OrderBook.repair_crossed,
      OrderBook.get_best_bid, OrderBook.get_best_ask, EPS8, bidBefore, askBefore,
      List.dropWhile_cons]
  have ha : ((((OrderBook.init "S").update_order 100 5 Side.ASK 0).update_order
      99 5 Side.BID 1).update_order 102 7 Side.BID 2).get_best_ask = some 100 := by
    norm_num [OrderBook.init, OrderBook.update_order, OrderBook.add_order, addToSide,
      mapFind, mapInsert, Limit.add_synthetic_order, Limit.init,
      OrderBook.validate_book_integrity, OrderBook.repair_crossed,
      OrderBook.get_best_bid, OrderBook.get_best_ask, EPS8, bidBefore, askBefore,
      List.dropWhile_cons]
  exact ⟨hb, ha,
    C2_crossed_book_amended _ 102 7 Side.BID 2 (by norm_num [EPS8]) 99 100 hb ha⟩

/-! ## FIFO reduction lemmas -/

/-- FIFO reduction removes from the queue sum exactly what it reports. -/
theorem reduceFifo_sum (q : ℚ) (os : List Order) :
    ((reduceFifo q os).2.map Order.quantity).sum
      = (os.map Order.quantity).sum - (reduceFifo q os).1 := by
  induction os generalizing q with
  | nil => simp [reduceFifo]
  | cons o rest ih =>
    rw [reduceFifo]
    by_cases h1 : q ≤ EPS8
    · rw [if_pos h1]
      simp
    · rw [if_neg h1]
      by_cases h2 : o.quantity ≤ q
      · rw [if_pos h2]
        simp only [List.map_cons, List.sum_cons]
        rw [ih (q - o.quantity)]
        ring
      · rw [if_neg h2]
        simp only [List.map_cons, List.sum_cons]
        ring

/-- On an all-positive queue, the removed amount is between 0 and the
requested amount. -/
theorem reduceFifo_removed_bound (q : ℚ) (os : List Order) (hq : 0 ≤ q)
    (hpos : ∀ o ∈ os, 0 < o.quantity) :
    0 ≤ (reduceFifo q os).1 ∧ (reduceFifo q os).1 ≤ q := by
  induction os generalizing q with
  | nil => simpa [reduceFifo] using hq
  | cons o rest ih =>
    rw [reduceFifo]
    by_cases h1 : q ≤ EPS8
    · rw [if_pos h1]
      exact ⟨le_refl 0, hq⟩
    · rw [if_neg h1]
      by_cases h2 : o.quantity ≤ q
      · rw [if_pos h2]
        have ho : 0 < o.quantity := hpos o (List.mem_cons_self o rest)
        have hrec := ih (q - o.quantity) (by linarith)
          (fun x hx => hpos x (List.mem_cons_of_mem o hx))
        constructor
        · simp only
          linarith [hrec.1]
        · simp only
          linarith [hrec.2]
      · rw [if_neg h2]
        exact ⟨hq, le_refl q⟩

/-- FIFO reduction keeps all remaining quantities strictly positive. -/
theorem reduceFifo_pos (q : ℚ) (os : List Order)
    (hpos : ∀ o ∈ os, 0 < o.quantity) :
    ∀ o ∈ (reduceFifo q os).2, 0 < o.quantity := by
  induction os generalizing q with
  | nil => simp [reduceFifo]
  | cons o rest ih =>
    rw [reduceFifo]
    by_cases h1 : q ≤ EPS8
    · rw [if_pos h1]
      exact hpos
    · rw [if_neg h1]
      by_cases h2 : o.quantity ≤ q
      · rw [if_pos h2]
        exact ih (q - o.quantity) (fun x hx => hpos x (List.mem_cons_of_mem o hx))
      · rw [if_neg h2]
        intro x hx
        rcases List.mem_cons.mp hx with he | hm
        · rw [he]
          simp only
          linarith [not_le.mp h2]
        · exact hpos x (List.mem_cons_of_mem o hm)

/-! ## Exact level invariant preservation -/

/-- Appending a strictly positive synthetic order preserves the exact
level invariant as long as the resulting volume is at least `1e-8`. -/
theorem exactInv_add_synthetic (l : Limit) (hl : l.exactInv) (nid : Nat)
    (d : ℚ) (hd : 0 < d) (hmin : EPS8 ≤ l.total_volume + d) (s : Side)
    (ts : Nat) : (l.add_synthetic_order nid d s ts).exactInv := by
  obtain ⟨h1, h2, h3, h4⟩ := hl
  refine ⟨?_, ?_, ?_, ?_⟩
  · simp [Limit.add_synthetic_order, Limit.queueSum] at h1 ⊢
    rw [h1]
  · simp [Limit.add_synthetic_order]
  · intro o ho
    simp only [Limit.add_synthetic_order, List.mem_append,
      List.mem_singleton] at ho
    rcases ho with hm | he
    · exact h3 o hm
    · rw [he]
      exact hd
  · simp only [Limit.add_synthetic_order]
    constructor
    · intro he
      exact absurd he (by simp)
    · intro hlt
      exact absurd hlt (not_lt.mpr hmin)

/-- The fresh one-order level created for a new price satisfies the exact
level invariant when its quantity is at least `1e-8`. -/
theorem exactInv_init_add (p : ℚ) (nid : Nat) (q : ℚ) (hq : EPS8 ≤ q)
    (s : Side) (ts : Nat) :
    ((Limit.init p).add_synthetic_order nid q s ts).exactInv := by
  have h0 : (Limit.init p).exactInv := by
    refine ⟨by simp [Limit.init, Limit.queueSum], by simp [Limit.init], ?_, ?_⟩
    · simp [Limit.init]
    · simp [Limit.init]
      norm_num [EPS8]
  have hq0 : 0 < q := lt_of_lt_of_le (by norm_num [EPS8]) hq
  have hmin : EPS8 ≤ (Limit.init p).total_volume + q := by
    simp [Limit.init]
    linarith
  exact exactInv_add_synthetic _ h0 nid q hq0 hmin s ts

/-- FIFO reduction preserves the exact level invariant whenever at least
`1e-8` of volume is to remain. -/
theorem exactInv_reduce (l : Limit) (hl : l.exactInv) (a : ℚ) (ha : 0 ≤ a)
    (hmin : EPS8 ≤ l.total_volume - a) :
    (l.reduce_volume_fifo a).2.exactInv := by
  obtain ⟨h1, h2, h3, h4⟩ := hl
  have hb := reduceFifo_removed_bound a l.orders ha h3
  have hs := reduceFifo_sum a l.orders
  have htot : EPS8 ≤ l.total_volume - (reduceFifo a l.orders).1 := by
    linarith [hb.2]
  refine ⟨?_, ?_, ?_, ?_⟩
  · simp only [Limit.reduce_volume_fifo, Limit.queueSum]
    rw [hs]
    simp only [Limit.queueSum] at h1
    rw [h1]
  · simp [Limit.reduce_volume_fifo]
  · simp only [Limit.reduce_volume_fifo]
    exact reduceFifo_pos a l.orders h3
  · simp only [Limit.reduce_volume_fifo]
    constructor
    · intro he
      have : ((reduceFifo a l.orders).2.map Order.quantity).sum = 0 := by
        rw [he]
        simp
      rw [hs] at this
      simp only [Limit.queueSum] at h1
      rw [h1] at this
      have hpos8 : (0 : ℚ) < EPS8 := by norm_num [EPS8]
      linarith
    · intro hlt
      exact absurd hlt (not_lt.mpr htot)

/-- Values found by `mapFind` are entries of the map. -/
theorem mapFind_mem (p : ℚ) (m : SideMap) (v : Limit)
    (h : mapFind p m = some v) : (p, v) ∈ m := by
  induction m with
  | nil => cases h
  | cons kv rest ih =>
    rw [mapFind] at h
    by_cases he : p = kv.1
    · rw [if_pos he] at h
      have hv : kv.2 = v := by
        injection h
      have : (p, v) = kv := by
        rw [he, ← hv]
      rw [this]
      exact List.mem_cons_self kv rest
    · rw [if_neg he] at h
      exact List.mem_cons_of_mem kv (ih h)

/-- A value predicate survives `mapModify` when `f` preserves it on the
value the key currently holds. -/
theorem mem_mapModify_pred (P : Limit → Prop) (p : ℚ) (f : Limit → Limit)
    (m : SideMap) (hm : ∀ kv ∈ m, P kv.2)
    (hf : ∀ v, mapFind p m = some v → P v → P (f v)) :
    ∀ kv ∈ mapModify p f m, P kv.2 := by
  induction m with
  | nil => simp [mapModify]
  | cons kv0 rest ih =>
    rw [mapModify]
    by_cases he : p = kv0.1
    · rw [if_pos he]
      intro kv hkv
      rcases List.mem_cons.mp hkv with h | h
      · rw [h]
        refine hf kv0.2 ?_ (hm kv0 (List.mem_cons_self kv0 rest))
        rw [mapFind, if_pos he]
      · exact hm kv (List.mem_cons_of_mem kv0 h)
    · rw [if_neg he]
      intro kv hkv
      rcases List.mem_cons.mp hkv with h | h
      · exact h ▸ hm kv0 (List.mem_cons_self kv0 rest)
      · refine ih (fun x hx => hm x (List.mem_cons_of_mem kv0 hx)) ?_ kv h
        intro v hv
        refine hf v ?_
        rw [mapFind, if_neg he]
        exact hv

/-- The delta-based side update preserves the exact level invariant on
every entry, for quantities of at least `1e-8`. -/
theorem exactInv_addToSide (lt : ℚ → ℚ → Bool) (m : SideMap) (nid : Nat)
    (p q : ℚ) (s : Side) (ts : Nat) (hm : ∀ kv ∈ m, kv.2.exactInv)
    (hq : EPS8 ≤ q) : ∀ kv ∈ (addToSide lt m nid p q s ts).1, kv.2.exactInv := by
  cases hF : mapFind p m with
  | some lim =>
    simp only [addToSide, hF]
    split_ifs with h1 h2
    · apply mem_mapModify_pred _ _ _ _ hm
      intro v hv hPv
      have hveq : v = lim := by
        rw [hF] at hv
        injection hv with h
        exact h.symm
      subst hveq
      refine exactInv_add_synthetic v hPv nid _
        (lt_trans (by norm_num [EPS8]) h1) ?_ s ts
      have : v.total_volume + (q - v.total_volume) = q := by ring
      rw [this]
      exact hq
    · apply mem_mapModify_pred _ _ _ _ hm
      intro v hv hPv
      have hveq : v = lim := by
        rw [hF] at hv
        injection hv with h
        exact h.symm
      subst hveq
      refine exactInv_reduce v hPv _ (by linarith [h2]) ?_
      have : v.total_volume - -(q - v.total_volume) = q := by ring
      rw [this]
      exact hq
    · exact hm
  | none =>
    simp only [addToSide, hF]
    intro kv hkv
    rcases mem_mapInsert _ _ _ _ kv hkv with he | hmem
    · rw [he]
      exact exactInv_init_add p nid q hq s ts
    · exact hm kv hmem

/-- A member-wise level predicate survives `validate_book_integrity`
(which only erases entries). -/
theorem levels_pred_validate (P : Limit → Prop) (b : OrderBook)
    (hb : ∀ kv ∈ b.bids ++ b.asks, P kv.2) :
    ∀ kv ∈ b.validate_book_integrity.bids ++ b.validate_book_integrity.asks,
      P kv.2 := by
  intro kv hkv
  apply hb
  rw [OrderBook.validate_book_integrity] at hkv
  cases hbb : b.get_best_bid with
  | none =>
    simpa [hbb] using hkv
  | some bb0 =>
    cases hba : b.get_best_ask with
    | none =>
      simpa [hbb, hba] using hkv
    | some ba0 =>
      simp only [hbb, hba] at hkv
      by_cases hc : ba0 < bb0
      · rw [if_pos hc, OrderBook.repair_crossed] at hkv
        cases heq : (b.bids.dropWhile
            (fun kv => decide (ba0 < kv.1))).head?.map Prod.fst with
        | some nbb =>
          rw [heq] at hkv
          rcases List.mem_append.mp hkv with h | h
          · exact List.mem_append_left _ ((List.dropWhile_sublist _).subset h)
          · exact List.mem_append_right _ ((List.dropWhile_sublist _).subset h)
        | none =>
          rw [heq] at hkv
          rcases List.mem_append.mp hkv with h | h
          · exact List.mem_append_left _ ((List.dropWhile_sublist _).subset h)
          · exact List.mem_append_right _ h
      · rw [if_neg hc] at hkv
        exact hkv

/-- A member-wise level predicate survives `clear_price_level`. -/
theorem levels_pred_clear_price_level (P : Limit → Prop) (b : OrderBook)
    (hb : ∀ kv ∈ b.bids ++ b.asks, P kv.2) (p : ℚ) (s : Side) :
    ∀ kv ∈ (b.clear_price_level p s).bids ++ (b.clear_price_level p s).asks,
      P kv.2 := by
  intro kv hkv
  apply hb
  cases s with
  | BID =>
    simp only [OrderBook.clear_price_level] at hkv
    rcases List.mem_append.mp hkv with h | h
    · exact List.mem_append_left _ (List.mem_of_mem_filter h)
    · exact List.mem_append_right _ h
  | ASK =>
    simp only [OrderBook.clear_price_level] at hkv
    rcases List.mem_append.mp hkv with h | h
    · exact List.mem_append_left _ h
    · exact List.mem_append_right _ (List.mem_of_mem_filter h)

/-- `update_order` with a non-negative quantity preserves the exact level
invariant on every entry of the book. -/
theorem exactLevels_update (b : OrderBook) (hb : b.exactLevels) (p q : ℚ)
    (s : Side) (t : Nat) (hq : 0 ≤ q) : (b.update_order p q s t).exactLevels := by
  rw [OrderBook.update_order]
  by_cases hz : q = 0 ∨ |q| < EPS8
  · rw [if_pos hz]
    exact levels_pred_clear_price_level _ b hb p s
  · rw [if_neg hz]
    have hq8 : EPS8 ≤ q := by
      rcases not_or.mp hz with ⟨h0, habs⟩
      have := not_lt.mp habs
      rwa [abs_of_nonneg hq] at this
    have hadd : ∀ kv ∈ (b.add_order p q s t).bids ++ (b.add_order p q s t).asks,
        kv.2.exactInv := by
      cases s with
      | BID =>
        intro kv hkv
        rcases List.mem_append.mp hkv with h | h
        · exact exactInv_addToSide bidBefore b.bids b.next_order_id p q Side.BID t
            (fun x hx => hb x (List.mem_append_left _ hx)) hq8 kv h
        · exact hb kv (List.mem_append_right _ h)
      | ASK =>
        intro kv hkv
        rcases List.mem_append.mp hkv with h | h
        · exact hb kv (List.mem_append_left _ h)
        · exact exactInv_addToSide askBefore b.asks b.next_order_id p q Side.ASK t
            (fun x hx => hb x (List.mem_append_right _ hx)) hq8 kv h
    exact levels_pred_validate Limit.exactInv _ hadd

/-- Every book reachable from the fresh book through non-negative-quantity
`update_order` calls satisfies the exact level invariant everywhere. -/
theorem reachable_exactLevels (sym : String) (l : List Update)
    (hl : ∀ u ∈ l, 0 ≤ u.quantity) :
    (applyUpdates (OrderBook.init sym) l).exactLevels := by
  induction l using List.reverseRecOn with
  | nil =>
    intro kv hkv
    simp [OrderBook.init, applyUpdates] at hkv
  | append_singleton l u ih =>
    have hstep : applyUpdates (OrderBook.init sym) (l ++ [u])
        = (applyUpdates (OrderBook.init sym) l).update_order u.price u.quantity
            u.side u.ts := by
      simp [applyUpdates, List.foldl_append]
    rw [hstep]
    refine exactLevels_update _ ?_ _ _ _ _ ?_
    · exact ih (fun x hx => hl x (List.mem_append_left _ hx))
    · exact hl u (List.mem_append_right _ (List.mem_singleton_self u))

/-! ## Claim C1: level invariants under non-negative updates -/

/-- C1 (amended): for every sequence of `update_order` calls with
non-negative quantities, at every point after an update completes, every
price level present in the book satisfies the level invariant: the sum of
its queue's order quantities is within `1e-6` of its aggregate
`total_volume` (in the rational model they agree exactly), its
`order_count` equals the length of its queue, every queued quantity is
`≥ 0`, and its queue is empty if and only if its aggregate volume is
below `1e-8`. -/
theorem C1_level_invariants_amended (sym : String) (l : List Update)
    (hl : ∀ u ∈ l, 0 ≤ u.quantity) :
    ∀ lim ∈ (applyUpdates (OrderBook.init sym) l).allLimits,
      lim.invariantsHold := by
  intro lim hlim
  rw [OrderBook.allLimits] at hlim
  rcases List.mem_map.mp hlim with ⟨kv, hkv, heq⟩
  have hx := reachable_exactLevels sym l hl kv hkv
  rw [← heq]
  obtain ⟨h1, h2, h3, h4⟩ := hx
  refine ⟨?_, fun o ho => le_of_lt (h3 o ho), h4, h2⟩
  rw [Limit.queueSum] at h1 ⊢
  rw [h1]
  simp
  norm_num [EPS6]

/-- Witness for C1 (amended) on the two-update bid sequence at price 100. -/
theorem C1_level_invariants_witness :
    (∀ u ∈ ([{ price := 100, quantity := 50, side := Side.BID, ts := 0 },
             { price := 100, quantity := 80, side := Side.BID, ts := 1 }] :
            List Update),
        0 ≤ u.quantity) ∧
    ∀ lim ∈ (applyUpdates (OrderBook.init "S")
        ([{ price := 100, quantity := 50, side := Side.BID, ts := 0 },
          { price := 100, quantity := 80, side := Side.BID, ts := 1 }] :
         List Update)).allLimits,
      lim.invariantsHold := by
  have hl : ∀ u ∈ ([{ price := 100, quantity := 50, side := Side.BID, ts := 0 },
        { price := 100, quantity := 80, side := Side.BID, ts := 1 }] :
       List Update),
      0 ≤ u.quantity := by
    intro u hu
    rcases List.mem_cons.mp hu with h | h
    · rw [h]
      norm_num
    · rw [List.mem_singleton.mp h]
      norm_num
  exact ⟨hl, C1_level_invariants_amended "S" _ hl⟩

/-! ## Claim C3: delta reconstruction on one bid level -/

/-- C3: starting from an empty book, the sequence
`update_order(p, 50, BID, t0); update_order(p, 80, BID, t1);
update_order(p, 60, BID, t2); update_order(p, 10, BID, t3)` produces the
order queue `[50]`, then `[50, 30]` with bid volume 80, then `[30, 30]`
(first order reduced by 20), then `[10]` (first order of 30 removed,
second reduced from 30 to 10). -/
theorem C3_delta_reconstruction (sym : String) (p : ℚ) (t0 t1 t2 t3 : Nat) :
    ((((OrderBook.init sym).update_order p 50 Side.BID t0).get_orders_at_price
        p Side.BID).map Order.quantity = [50]) ∧
    (((((OrderBook.init sym).update_order p 50 Side.BID t0).update_order
        p 80 Side.BID t1).get_orders_at_price p Side.BID).map Order.quantity
      = [50, 30]) ∧
    ((((OrderBook.init sym).update_order p 50 Side.BID t0).update_order
        p 80 Side.BID t1).get_bid_volume p = 80) ∧
    ((((((OrderBook.init sym).update_order p 50 Side.BID t0).update_order
        p 80 Side.BID t1).update_order p 60 Side.BID t2).get_orders_at_price
        p Side.BID).map Order.quantity = [30, 30]) ∧
    (((((((OrderBook.init sym).update_order p 50 Side.BID t0).update_order
        p 80 Side.BID t1).update_order p 60 Side.BID t2).update_order
        p 10 Side.BID t3).get_orders_at_price p Side.BID).map Order.quantity
      = [10]) := by
  norm_num [OrderBook.init, OrderBook.update_order, OrderBook.add_order, addToSide,
    mapFind, mapInsert, mapModify, mapErase, Limit.add_synthetic_order,
    Limit.reduce_volume_fifo, reduceFifo, Limit.init, OrderBook.validate_book_integrity,
    OrderBook.get_best_bid, OrderBook.get_best_ask, OrderBook.get_orders_at_price,
    OrderBook.get_bid_volume, OrderBook.clear_price_level, EPS8, bidBefore, askBefore]

/-! ## Claim C4: zero-quantity removal -/

/-- C4: for every book state, price and side, `update_order(p, 0, s, t)`
leaves the price level at `p` on side `s` absent, whatever the prior queue
contents were; the removal goes through the erase fast path, not through
partial FIFO reduction. -/
theorem C4_zero_quantity_removal (b : OrderBook) (p : ℚ) (s : Side) (t : Nat) :
    (b.update_order p 0 s t).findLevel p s = none := by
  have h : (0 : ℚ) = 0 ∨ |(0 : ℚ)| < EPS8 := Or.inl rfl
  rw [OrderBook.update_order, if_pos h]
  cases s <;>
    simp [OrderBook.clear_price_level, OrderBook.findLevel, mapFind_mapErase]

/-! ## Claim C5: resync restarts the synthetic-id sequence -/

/-- C5: after any sequence of `update_order` calls, `clear()` followed by
`update_order(p, 100, BID, t)` produces a book whose queue at `p` holds
exactly one synthetic order of quantity 100 carrying the restarted id 1
(and the counter stands at 2 for the next assignment). -/
theorem C5_resync_restart (sym : String) (l : List Update) (p : ℚ) (t : Nat) :
    (((applyUpdates (OrderBook.init sym) l).clear.update_order p 100 Side.BID
        t).get_orders_at_price p Side.BID
      = [{ order_id := 1, price := p, quantity := 100, side := Side.BID,
           timestamp := t }]) ∧
    ((applyUpdates (OrderBook.init sym) l).clear.update_order p 100 Side.BID
        t).next_order_id = 2 := by
  norm_num [OrderBook.clear, OrderBook.update_order, OrderBook.add_order, addToSide,
    mapFind, mapInsert, Limit.add_synthetic_order, Limit.init,
    OrderBook.validate_book_integrity, OrderBook.get_best_bid, OrderBook.get_best_ask,
    OrderBook.get_orders_at_price, EPS8]

/-! ## Claim C6: position/PnL bookkeeping -/

/-- Counterexample to C6 as stated: from position 10 at average entry 100,
a fill of quantity −20 at price 110 moves the position through zero
(from +10 to −10, a sign change), yet the code blends the average entry
price to 120 instead of resetting it to zero (it resets only when the new
position lands within `1e-8` of zero). -/
theorem C6_cross_zero_counterexample :
    (0 : ℚ) < 10 ∧ (10 : ℚ) + -20 < 0 ∧
    (StrategyState.update_position
        { position := 10, pnl := 0, avg_entry_price := 100 } (-20) 110).avg_entry_price
      = 120 ∧ (120 : ℚ) ≠ 0 := by
  norm_num [StrategyState.update_position, EPS8]

/-- C6 (amended): `update_position(quantity, price)` adds the realized
delta `-quantity * (price - avg_entry_price)` to PnL only when the prior
position is nonzero (before the average entry price is recomputed), sets
the new position to the sum, blends the average entry price
position-weightedly whenever the resulting position is farther than `1e-8`
from zero — including sign changes — and resets the average entry price to
zero exactly when the resulting position is within `1e-8` of zero. -/
theorem C6_record_fill_amended (s : StrategyState) (q p : ℚ) :
    (s.position ≠ 0 →
      (s.update_position q p).pnl = s.pnl + -q * (p - s.avg_entry_price)) ∧
    (s.position = 0 → (s.update_position q p).pnl = s.pnl) ∧
    (s.update_position q p).position = s.position + q ∧
    (EPS8 < |s.position + q| →
      (s.update_position q p).avg_entry_price
        = (s.position * s.avg_entry_price + q * p) / (s.position + q)) ∧
    (|s.position + q| ≤ EPS8 → (s.update_position q p).avg_entry_price = 0) := by
  refine ⟨fun h => ?_, fun h => ?_, rfl, fun h => ?_, fun h => ?_⟩ <;>
    simp [StrategyState.update_position, h, not_lt.mpr]

/-- Witness for C6 (amended) at position 1, average entry 5, fill of
quantity 1 at price 7. -/
theorem C6_record_fill_witness :
    ((1 : ℚ) ≠ 0 ∧
      (StrategyState.update_position
          { position := 1, pnl := 0, avg_entry_price := 5 } 1 7).pnl
        = 0 + -1 * (7 - 5)) ∧
    (EPS8 < |(1 : ℚ) + 1| ∧
      (StrategyState.update_position
          { position := 1, pnl := 0, avg_entry_price := 5 } 1 7).avg_entry_price
        = (1 * 5 + 1 * 7) / (1 + 1)) := by
  constructor
  · exact ⟨by norm_num,
      (C6_record_fill_amended { position := 1, pnl := 0, avg_entry_price := 5 } 1 7).1
        (by norm_num)⟩
  · exact ⟨by norm_num [EPS8],
      (C6_record_fill_amended { position := 1, pnl := 0, avg_entry_price := 5 } 1
          7).2.2.2.1 (by norm_num [EPS8])⟩

/-! ## Counterexamples from negative-quantity updates (C1, C8) -/

/-- Counterexample to C1 as stated: `update_order(100, −5, BID, 0)` on the
fresh book (quantity −5 passes the zero/epsilon guard) creates a present
price level whose single queued synthetic order has quantity −5 < 0,
violating the non-negativity part of the level invariant. -/
theorem C1_negative_quantity_counterexample :
    (((OrderBook.init "S").update_order 100 (-5) Side.BID 0).get_orders_at_price
        100 Side.BID).map Order.quantity = [-5] ∧
    ((OrderBook.init "S").update_order 100 (-5) Side.BID 0).findLevel 100 Side.BID
      = some { price := 100, total_volume := -5, order_count := 1,
               orders := [{ order_id := 1, price := 100, quantity := -5,
                            side := Side.BID, timestamp := 0 }] } ∧
    ¬ (0 : ℚ) ≤ -5 := by
  norm_num [OrderBook.init, OrderBook.update_order, OrderBook.add_order, addToSide,
    mapFind, mapInsert, Limit.add_synthetic_order, Limit.init,
    OrderBook.validate_book_integrity, OrderBook.get_best_bid, OrderBook.get_best_ask,
    OrderBook.get_orders_at_price, OrderBook.findLevel, EPS8]

/-- Counterexample to C8 as stated: after `update_order(100, −5, BID, 0)`
and `update_order(101, 10, ASK, 1)` (both accepted by the code), the
imbalance over depth 5 is (−5 − 10) / (−5 + 10) = −3, outside `[-1, 1]`. -/
theorem C8_range_counterexample :
    (((OrderBook.init "S").update_order 100 (-5) Side.BID 0).update_order 101 10
        Side.ASK 1).calculate_imbalance 5 = -3 ∧
    ¬ (-1 : ℚ) ≤ -3 := by
  norm_num [OrderBook.init, OrderBook.update_order, OrderBook.add_order, addToSide,
    mapFind, mapInsert, Limit.add_synthetic_order, Limit.init,
    OrderBook.validate_book_integrity, OrderBook.get_best_bid, OrderBook.get_best_ask,
    OrderBook.calculate_imbalance, OrderBook.get_total_bid_volume,
    OrderBook.get_total_ask_volume, EPS8, bidBefore, askBefore]

/-! ## Counterexample for C2 (equality case tolerated) -/

/-- Counterexample to C2 as stated: build ask level 100, then bid level
100.  The `update_order` call runs the integrity check, but with
`best_bid == best_ask` the code takes no action and keeps no corruption
flag: both levels remain silently queryable, and the repaired-strictly-
uncrossed outcome `best_bid < best_ask` demanded for the `≥` case fails. -/
theorem C2_equal_prices_counterexample :
    (((OrderBook.init "S").update_order 100 5 Side.ASK 0).update_order 100 5
        Side.BID 1).get_best_bid = some 100 ∧
    (((OrderBook.init "S").update_order 100 5 Side.ASK 0).update_order 100 5
        Side.BID 1).get_best_ask = some 100 ∧
    (((OrderBook.init "S").update_order 100 5 Side.ASK 0).update_order 100 5
        Side.BID 1).get_bid_volume 100 = 5 ∧
    (((OrderBook.init "S").update_order 100 5 Side.ASK 0).update_order 100 5
        Side.BID 1).get_ask_volume 100 = 5 ∧
    ¬ (100 : ℚ) < 100 := by
  norm_num [OrderBook.init, OrderBook.update_order, OrderBook.add_order, addToSide,
    mapFind, mapInsert, Limit.add_synthetic_order, Limit.init,
    OrderBook.validate_book_integrity, OrderBook.get_best_bid, OrderBook.get_best_ask,
    OrderBook.get_bid_volume, OrderBook.get_ask_volume, EPS8, bidBefore, askBefore]

/-! ## Counterexample for C9 (clear() reuses ids) -/

/-- Counterexample to C9 as stated: the order-creation call before
`clear()` and the one after it are distinct creation calls, yet both
synthetic orders carry identifier 1 — `clear()` resets the counter, so
ids are reused and the later id is not greater than the earlier one. -/
theorem C9_reuse_counterexample :
    ((((OrderBook.init "S").update_order 100 5 Side.BID 0).get_orders_at_price
        100 Side.BID).map Order.order_id = [1]) ∧
    (((((OrderBook.init "S").update_order 100 5 Side.BID
        0).clear).update_order 100 5 Side.BID 1).get_orders_at_price
        100 Side.BID).map Order.order_id = [1] := by
  norm_num [OrderBook.init, OrderBook.update_order, OrderBook.add_order, addToSide,
    mapFind, mapInsert, Limit.add_synthetic_order, Limit.init, OrderBook.clear,
    OrderBook.validate_book_integrity, OrderBook.get_best_bid, OrderBook.get_best_ask,
    OrderBook.get_orders_at_price, EPS8, bidBefore, askBefore]

/-! ## Identifier bookkeeping (claim C9) -/

/-- A sublist of lists flattens to a sublist. -/
theorem flatten_sublist {α : Type} {l1 l2 : List (List α)}
    (h : List.Sublist l1 l2) : List.Sublist l1.flatten l2.flatten := by
  induction h with
  | slnil => exact List.Sublist.refl _
  | cons a h ih =>
    rw [List.flatten_cons]
    exact ih.trans (List.sublist_append_right a _)
  | cons₂ a h ih =>
    rw [List.flatten_cons, List.flatten_cons]
    exact List.Sublist.append (List.Sublist.refl a) ih

/-- The book's identifiers split into the two sides. -/
theorem allOrderIds_split (b : OrderBook) :
    b.allOrderIds = sideIds b.bids ++ sideIds b.asks := by
  simp only [OrderBook.allOrderIds, OrderBook.allLimits, sideIds, limIds,
    List.map_map, List.map_append, List.flatten_append]
  rfl

/-- A side sublist gives an identifier sublist. -/
theorem sideIds_sublist {m1 m2 : SideMap} (h : List.Sublist m1 m2) :
    List.Sublist (sideIds m1) (sideIds m2) :=
  flatten_sublist (h.map limIds)

/-- Identifier sublist through a value-shrinking `mapModify`. -/
theorem sideIds_modify_sublist (p : ℚ) (f : Limit → Limit) (m : SideMap)
    (hf : ∀ v, List.Sublist ((f v).orders.map Order.order_id)
      (v.orders.map Order.order_id)) :
    List.Sublist (sideIds (mapModify p f m)) (sideIds m) := by
  induction m with
  | nil => exact List.Sublist.refl _
  | cons kv rest ih =>
    rw [mapModify]
    by_cases he : p = kv.1
    · rw [if_pos he]
      simp only [sideIds, List.map_cons, List.flatten_cons]
      exact List.Sublist.append (hf kv.2) (List.Sublist.refl _)
    · rw [if_neg he]
      simp only [sideIds, List.map_cons, List.flatten_cons]
      exact List.Sublist.append (List.Sublist.refl _) ih

/-- Middle-singleton shuffle for permutations. -/
theorem perm_mid_singleton {A B : List Nat} {n : Nat} :
    List.Perm ((A ++ [n]) ++ B) ((A ++ B) ++ [n]) := by
  rw [List.append_assoc A [n] B, List.append_assoc A B [n]]
  exact List.Perm.append_left A List.perm_append_comm

/-- Identifier permutation through a `mapModify` that appends one fresh
identifier to the value the key holds. -/
theorem sideIds_modify_perm (p : ℚ) (f : Limit → Limit) (m : SideMap)
    (v0 : Limit) (nid : Nat) (hF : mapFind p m = some v0)
    (hf : (f v0).orders.map Order.order_id
      = v0.orders.map Order.order_id ++ [nid]) :
    List.Perm (sideIds (mapModify p f m)) (sideIds m ++ [nid]) := by
  induction m with
  | nil => cases hF
  | cons kv rest ih =>
    rw [mapModify]
    by_cases he : p = kv.1
    · rw [if_pos he]
      rw [mapFind, if_pos he] at hF
      have hv : kv.2 = v0 := by
        injection hF
      simp only [sideIds, List.map_cons, List.flatten_cons, limIds, hv, hf]
      exact perm_mid_singleton
    · rw [if_neg he]
      rw [mapFind, if_neg he] at hF
      simp only [sideIds, List.map_cons, List.flatten_cons]
      have hassoc : limIds kv ++ ((List.map limIds rest).flatten ++ [nid])
          = (limIds kv ++ (List.map limIds rest).flatten) ++ [nid] :=
        (List.append_assoc _ _ _).symm
      exact List.Perm.trans (List.Perm.append_left _ (ih hF))
        (hassoc ▸ List.Perm.refl _)

/-- Inserting an absent key is a permutation with consing it. -/
theorem mapInsert_perm (lt : ℚ → ℚ → Bool) (p : ℚ) (v : Limit) (m : SideMap)
    (hF : mapFind p m = none) : List.Perm (mapInsert lt p v m) ((p, v) :: m) := by
  induction m with
  | nil => exact List.Perm.refl _
  | cons kv rest ih =>
    rw [mapFind] at hF
    by_cases he : p = kv.1
    · rw [if_pos he] at hF
      cases hF
    · rw [if_neg he] at hF
      rw [mapInsert, if_neg he]
      by_cases h2 : lt p kv.1
      · rw [if_pos h2]
      · rw [if_neg h2]
        exact List.Perm.trans (List.Perm.cons kv (ih hF))
          (List.Perm.swap (p, v) kv rest)

/-- A side permutation gives an identifier permutation. -/
theorem sideIds_perm {m1 m2 : SideMap} (h : List.Perm m1 m2) :
    List.Perm (sideIds m1) (sideIds m2) :=
  (h.map limIds).flatten

/-- FIFO reduction only drops a prefix of the identifier sequence (a
partially reduced front order keeps its identifier). -/
theorem reduceFifo_ids_sublist (q : ℚ) (os : List Order) :
    List.Sublist ((reduceFifo q os).2.map Order.order_id)
      (os.map Order.order_id) := by
  induction os generalizing q with
  | nil => simp [reduceFifo]
  | cons o rest ih =>
    rw [reduceFifo]
    by_cases h1 : q ≤ EPS8
    · rw [if_pos h1]
    · rw [if_neg h1]
      by_cases h2 : o.quantity ≤ q
      · rw [if_pos h2]
        simp only [List.map_cons]
        exact (ih (q - o.quantity)).trans (List.sublist_cons_self _ _)
      · rw [if_neg h2]
        simp only [List.map_cons]
        exact List.Sublist.refl _

/-- Keeping the bound and distinctness through an id-preserving shrink. -/
theorem idInv_of_sublist (b b2 : OrderBook)
    (h : List.Sublist b2.allOrderIds b.allOrderIds)
    (hn : b.next_order_id ≤ b2.next_order_id) (hb : b.idInv) : b2.idInv :=
  ⟨fun i hi => lt_of_lt_of_le (hb.1 i (h.subset hi)) hn,
   hb.2.sublist h⟩

/-- Keeping the bound and distinctness through appending the fresh id and
bumping the counter. -/
theorem idInv_of_append_nid (b b2 : OrderBook)
    (hp : List.Perm b2.allOrderIds (b.allOrderIds ++ [b.next_order_id]))
    (hn : b2.next_order_id = b.next_order_id + 1) (hb : b.idInv) : b2.idInv := by
  constructor
  · intro i hi
    rw [hn]
    rcases List.mem_append.mp (hp.subset hi) with h | h
    · exact lt_trans (hb.1 i h) (Nat.lt_succ_self _)
    · rw [List.mem_singleton.mp h]
      exact Nat.lt_succ_self _
  · refine hp.symm.nodup ?_
    rw [List.nodup_append]
    refine ⟨hb.2, List.nodup_singleton _, ?_⟩
    intro i hi hmem
    rw [List.mem_singleton.mp hmem] at hi
    exact absurd (hb.1 _ hi) (lt_irrefl _)

/-- `validate_book_integrity` keeps the id counter. -/
theorem nid_validate (b : OrderBook) :
    b.validate_book_integrity.next_order_id = b.next_order_id := by
  rw [OrderBook.validate_book_integrity]
  cases hbb : b.get_best_bid with
  | none => simp
  | some bb0 =>
    cases hba : b.get_best_ask with
    | none => simp
    | some ba0 =>
      simp only
      by_cases hc : ba0 < bb0
      · rw [if_pos hc, OrderBook.repair_crossed]
        cases heq : (b.bids.dropWhile
            (fun kv => decide (ba0 < kv.1))).head?.map Prod.fst <;> simp [heq]
      · rw [if_neg hc]

/-- `validate_book_integrity` can only drop identifiers. -/
theorem allOrderIds_validate_sublist (b : OrderBook) :
    List.Sublist b.validate_book_integrity.allOrderIds b.allOrderIds := by
  rw [OrderBook.validate_book_integrity]
  cases hbb : b.get_best_bid with
  | none => simp
  | some bb0 =>
    cases hba : b.get_best_ask with
    | none => simp
    | some ba0 =>
      simp only
      by_cases hc : ba0 < bb0
      · rw [if_pos hc, OrderBook.repair_crossed]
        cases heq : (b.bids.dropWhile
            (fun kv => decide (ba0 < kv.1))).head?.map Prod.fst with
        | some nbb =>
          rw [allOrderIds_split, allOrderIds_split]
          exact List.Sublist.append
            (sideIds_sublist (List.dropWhile_sublist _))
            (sideIds_sublist (List.dropWhile_sublist _))
        | none =>
          rw [allOrderIds_split, allOrderIds_split]
          exact List.Sublist.append
            (sideIds_sublist (List.dropWhile_sublist _)) (List.Sublist.refl _)
      · rw [if_neg hc]

/-- The id invariant survives any single `update_order` call. -/
theorem idInv_update (b : OrderBook) (hb : b.idInv) (p q : ℚ) (s : Side)
    (t : Nat) : (b.update_order p q s t).idInv := by
  rw [OrderBook.update_order]
  by_cases hz : q = 0 ∨ |q| < EPS8
  · rw [if_pos hz]
    cases s with
    | BID =>
      refine idInv_of_sublist b _ ?_ (le_refl _) hb
      rw [allOrderIds_split, allOrderIds_split]
      exact List.Sublist.append (sideIds_sublist (List.filter_sublist _))
        (List.Sublist.refl _)
    | ASK =>
      refine idInv_of_sublist b _ ?_ (le_refl _) hb
      rw [allOrderIds_split, allOrderIds_split]
      exact List.Sublist.append (List.Sublist.refl _)
        (sideIds_sublist (List.filter_sublist _))
  · rw [if_neg hz]
    have hadd : (b.add_order p q s t).idInv := by
      cases s with
      | BID =>
        cases hF : mapFind p b.bids with
        | some lim =>
          simp only [OrderBook.add_order, addToSide, hF]
          split_ifs with h1 h2
          · refine idInv_of_append_nid b _ ?_ rfl hb
            rw [allOrderIds_split, allOrderIds_split]
            refine List.Perm.trans ?_ perm_mid_singleton
            refine List.Perm.append ?_ (List.Perm.refl _)
            refine sideIds_modify_perm p _ b.bids lim b.next_order_id hF ?_
            simp [Limit.add_synthetic_order]
          · refine idInv_of_sublist b _ ?_ (le_refl _) hb
            rw [allOrderIds_split, allOrderIds_split]
            refine List.Sublist.append ?_ (List.Sublist.refl _)
            refine sideIds_modify_sublist p _ b.bids ?_
            intro v
            simp only [Limit.reduce_volume_fifo]
            exact reduceFifo_ids_sublist _ _
          · exact hb
        | none =>
          simp only [OrderBook.add_order, addToSide, hF]
          refine idInv_of_append_nid b _ ?_ rfl hb
          rw [allOrderIds_split, allOrderIds_split]
          have hperm := sideIds_perm (mapInsert_perm bidBefore p
            ((Limit.init p).add_synthetic_order b.next_order_id q Side.BID t)
            b.bids hF)
          have hnew : sideIds ((p, (Limit.init p).add_synthetic_order
              b.next_order_id q Side.BID t) :: b.bids)
              = [b.next_order_id] ++ sideIds b.bids := by
            simp [sideIds, limIds, Limit.init, Limit.add_synthetic_order]
          rw [hnew] at hperm
          refine List.Perm.trans (List.Perm.append hperm (List.Perm.refl _)) ?_
          rw [List.append_assoc ([b.next_order_id]) (sideIds b.bids)
            (sideIds b.asks)]
          exact List.perm_append_comm
      | ASK =>
        cases hF : mapFind p b.asks with
        | some lim =>
          simp only [OrderBook.add_order, addToSide, hF]
          split_ifs with h1 h2
          · refine idInv_of_append_nid b _ ?_ rfl hb
            rw [allOrderIds_split, allOrderIds_split]
            have hmid := sideIds_modify_perm p
              (fun l => l.add_synthetic_order b.next_order_id
                (q - l.total_volume) Side.ASK t)
              b.asks lim b.next_order_id hF
              (by simp [Limit.add_synthetic_order])
            refine List.Perm.trans (List.Perm.append_left _ hmid) ?_
            rw [List.append_assoc (sideIds b.bids) (sideIds b.asks)
              [b.next_order_id]]
          · refine idInv_of_sublist b _ ?_ (le_refl _) hb
            rw [allOrderIds_split, allOrderIds_split]
            refine List.Sublist.append (List.Sublist.refl _) ?_
            refine sideIds_modify_sublist p _ b.asks ?_
            intro v
            simp only [Limit.reduce_volume_fifo]
            exact reduceFifo_ids_sublist _ _
          · exact hb
        | none =>
          simp only [OrderBook.add_order, addToSide, hF]
          refine idInv_of_append_nid b _ ?_ rfl hb
          rw [allOrderIds_split, allOrderIds_split]
          have hperm := sideIds_perm (mapInsert_perm askBefore p
            ((Limit.init p).add_synthetic_order b.next_order_id q Side.ASK t)
            b.asks hF)
          have hnew : sideIds ((p, (Limit.init p).add_synthetic_order
              b.next_order_id q Side.ASK t) :: b.asks)
              = [b.next_order_id] ++ sideIds b.asks := by
            simp [sideIds, limIds, Limit.init, Limit.add_synthetic_order]
          rw [hnew] at hperm
          refine List.Perm.trans (List.Perm.append_left _ hperm) ?_
          refine List.Perm.trans
            (List.Perm.append_left _ List.perm_append_comm) ?_
          rw [List.append_assoc (sideIds b.bids) (sideIds b.asks)
            [b.next_order_id]]
    refine idInv_of_sublist (b.add_order p q s t) _
      (allOrderIds_validate_sublist _) ?_ hadd
    rw [nid_validate]

/-- `update_order` never decreases the id counter. -/
theorem nid_le_update (b : OrderBook) (p q : ℚ) (s : Side) (t : Nat) :
    b.next_order_id ≤ (b.update_order p q s t).next_order_id := by
  rw [OrderBook.update_order]
  by_cases hz : q = 0 ∨ |q| < EPS8
  · rw [if_pos hz]
    cases s <;> exact le_refl _
  · rw [if_neg hz]
    rw [nid_validate]
    cases s with
    | BID =>
      cases hF : mapFind p b.bids with
      | some lim =>
        simp only [OrderBook.add_order, addToSide, hF]
        split_ifs <;> simp
      | none =>
        simp only [OrderBook.add_order, addToSide, hF]
        simp
    | ASK =>
      cases hF : mapFind p b.asks with
      | some lim =>
        simp only [OrderBook.add_order, addToSide, hF]
        split_ifs <;> simp
      | none =>
        simp only [OrderBook.add_order, addToSide, hF]
        simp

/-! ## Claim C7: event-line parsing -/

/-- A produced event means exactly 7 fields were counted: the field
counter starts at `idx`, increments once per token, and the final check
demands 7. -/
theorem parseFields_some_len (ts : List (List Char)) :
    ∀ (ev : Event) (idx : Nat) (e : Event),
      parseFields ev idx ts = some e → idx + ts.length = 7 := by
  induction ts with
  | nil =>
    intro ev idx e h
    rw [parseFields] at h
    by_cases hi : idx = 7
    · simp [hi]
    · rw [if_neg hi] at h
      cases h
  | cons tok rest ih =>
    intro ev idx e h
    rcases idx with _ | _ | _ | _ | _ | _ | _ | n <;>
      simp only [parseFields] at h
    · cases hS : stoullChars tok with
      | none =>
        rw [hS] at h
        cases h
      | some v =>
        rw [hS] at h
        have := ih _ _ _ h
        simp only [List.length_cons] at this ⊢
        omega
    · cases hS : stoullChars tok with
      | none =>
        rw [hS] at h
        cases h
      | some v =>
        rw [hS] at h
        have := ih _ _ _ h
        simp only [List.length_cons] at this ⊢
        omega
    · cases hS : stoullChars tok with
      | none =>
        rw [hS] at h
        cases h
      | some v =>
        rw [hS] at h
        have := ih _ _ _ h
        simp only [List.length_cons] at this ⊢
        omega
    · have := ih _ _ _ h
      simp only [List.length_cons] at this ⊢
      omega
    · cases hS : stodChars tok with
      | none =>
        rw [hS] at h
        cases h
      | some v =>
        rw [hS] at h
        have := ih _ _ _ h
        simp only [List.length_cons] at this ⊢
        omega
    · cases hS : stodChars tok with
      | none =>
        rw [hS] at h
        cases h
      | some v =>
        rw [hS] at h
        have := ih _ _ _ h
        simp only [List.length_cons] at this ⊢
        omega
    · have := ih _ _ _ h
      simp only [List.length_cons] at this ⊢
      omega
    · have := ih _ _ _ h
      simp only [List.length_cons] at this ⊢
      omega

/-- C7 (amended): a line whose token sequence does not have exactly 7
fields yields a parse failure (no event, no fatal fault); so does a line
with 7 fields one of whose numeric fields fails to convert (the integer
parsers are modelled in full; for the price/quantity fields the
`infNanLead` hypotheses exclude the digit-free `INF`/`NAN` spellings
that `strtod` additionally accepts, on which the decimal model and the
program disagree).  A line with exactly 7 fields whose numeric fields
convert — with the price/quantity tokens not hexadecimal (`hexLead`
false) and their values zero or of magnitude within `[2^-1021, 2^1023]`,
safely inside the finite normal range of `double` so that `std::stod`
neither overflows nor underflows — yields an event carrying those
fields; the side field is not validated: the literal `BID` gives the bid
side and every other token (not just `ASK`) gives the ask side. -/
theorem C7_parse_line_amended :
    (∀ line : String, (cppTokens line.toList).length ≠ 7 →
      parse_line line = none) ∧
    (∀ (line : String) (t0 t1 t2 t3 t4 t5 t6 : List Char),
      cppTokens line.toList = [t0, t1, t2, t3, t4, t5, t6] →
      infNanLead t4 = false → infNanLead t5 = false →
      (stoullChars t0 = none ∨ stoullChars t1 = none ∨
        stoullChars t2 = none ∨ stodChars t4 = none ∨ stodChars t5 = none) →
      parse_line line = none) ∧
    (∀ (line : String) (t0 t1 t2 t3 t4 t5 t6 : List Char) (a b c : Nat)
      (pr qt : ℚ),
      cppTokens line.toList = [t0, t1, t2, t3, t4, t5, t6] →
      stoullChars t0 = some a → stoullChars t1 = some b →
      stoullChars t2 = some c → stodChars t4 = some pr →
      stodChars t5 = some qt →
      hexLead t4 = false → hexLead t5 = false →
      |pr| ≤ 2 ^ 1023 → (pr = 0 ∨ 1 / 2 ^ 1021 ≤ |pr|) →
      |qt| ≤ 2 ^ 1023 → (qt = 0 ∨ 1 / 2 ^ 1021 ≤ |qt|) →
      parse_line line = some
        { exchange_seq := a, exchange_ts := b, local_ts := c,
          event_type := String.mk t3, price := pr, quantity := qt,
          side := if t6 = ['B', 'I', 'D'] then Side.BID else Side.ASK }) := by
  refine ⟨?_, ?_, ?_⟩
  · intro line hlen
    cases hE : parseFields Event.init 0 (cppTokens line.toList) with
    | none =>
      rw [parse_line]
      exact hE
    | some e =>
      have := parseFields_some_len _ _ _ _ hE
      simp at this
      exact absurd this hlen
  · intro line t0 t1 t2 t3 t4 t5 t6 hT hn4 hn5 hfail
    rw [parse_line, hT]
    cases h0 : stoullChars t0 with
    | none => simp [parseFields, h0]
    | some a =>
      cases h1 : stoullChars t1 with
      | none => simp [parseFields, h0, h1]
      | some b =>
        cases h2 : stoullChars t2 with
        | none => simp [parseFields, h0, h1, h2]
        | some c =>
          cases h4 : stodChars t4 with
          | none => simp [parseFields, h0, h1, h2, h4]
          | some pr =>
            cases h5 : stodChars t5 with
            | none => simp [parseFields, h0, h1, h2, h4, h5]
            | some qt =>
              simp [h0, h1, h2, h4, h5] at hfail
  · intro line t0 t1 t2 t3 t4 t5 t6 a b c pr qt hT h0 h1 h2 h4 h5 hx4 hx5
      hr1 hr2 hr3 hr4
    rw [parse_line, hT]
    simp [parseFields, h0, h1, h2, h4, h5]

/-- Counterexample to C7 as stated: the 7-field line whose side token is
`XYZ` — not one of `BID`/`ASK`, so not well-formed per the claim — is not
rejected: the reader produces an event and silently maps the unknown side
to `ASK`. -/
theorem C7_side_counterexample :
    parse_line "1|2|3|UPDATE|100.5|2|XYZ"
      = some { exchange_seq := 1, exchange_ts := 2, local_ts := 3,
               event_type := "UPDATE", price := 201 / 2, quantity := 2,
               side := Side.ASK } ∧
    ("XYZ" : String) ≠ "BID" ∧ ("XYZ" : String) ≠ "ASK" := by
  refine ⟨?_, by decide, by decide⟩
  have ht : cppTokens (String.toList "1|2|3|UPDATE|100.5|2|XYZ") =
      [['1'], ['2'], ['3'], ['U', 'P', 'D', 'A', 'T', 'E'],
       ['1', '0', '0', '.', '5'], ['2'], ['X', 'Y', 'Z']] := by decide
  have h0 : stoullChars ['1'] = some 1 := by decide
  have h1 : stoullChars ['2'] = some 2 := by decide
  have h2 : stoullChars ['3'] = some 3 := by decide
  have h4 : stodScan ['1', '0', '0', '.', '5']
      = some (false, ['1', '0', '0'], ['5'], 0) := by decide
  have h5 : stodScan ['2'] = some (false, ['2'], [], 0) := by decide
  have d4 : digitsToNat ['1', '0', '0', '5'] = 1005 := by decide
  have d5 : digitsToNat ['2'] = 2 := by decide
  simp [parse_line, ht, parseFields, h0, h1, h2, h4, h5, stodChars, Event.init]
  constructor
  · norm_num [decimalValue, d4]
  · norm_num [decimalValue, d5]

/-- Witness for C7 (amended): the 2-field line is rejected; the 7-field
line whose price field `abc` has no digits is rejected; and the
well-formed 7-field line with side `BID` parses into the carried event. -/
theorem C7_parse_line_witness :
    ((cppTokens (String.toList "1|2")).length ≠ 7 ∧
      parse_line "1|2" = none) ∧
    (stodChars ['a', 'b', 'c'] = none ∧
      parse_line "1|2|3|UPDATE|abc|2|BID" = none) ∧
    cppTokens (String.toList "1|2|3|UPDATE|100.5|2|BID") =
      [['1'], ['2'], ['3'], ['U', 'P', 'D', 'A', 'T', 'E'],
       ['1', '0', '0', '.', '5'], ['2'], ['B', 'I', 'D']] ∧
    parse_line "1|2|3|UPDATE|100.5|2|BID"
      = some { exchange_seq := 1, exchange_ts := 2, local_ts := 3,
               event_type := "UPDATE", price := 201 / 2, quantity := 2,
               side := if ['B', 'I', 'D'] = ['B', 'I', 'D'] then Side.BID
                       else Side.ASK } := by
  have hlen : (cppTokens (String.toList "1|2")).length ≠ 7 := by decide
  have hTb : cppTokens (String.toList "1|2|3|UPDATE|abc|2|BID") =
      [['1'], ['2'], ['3'], ['U', 'P', 'D', 'A', 'T', 'E'],
       ['a', 'b', 'c'], ['2'], ['B', 'I', 'D']] := by decide
  have habc : stodChars ['a', 'b', 'c'] = none := by decide
  have hT : cppTokens (String.toList "1|2|3|UPDATE|100.5|2|BID") =
      [['1'], ['2'], ['3'], ['U', 'P', 'D', 'A', 'T', 'E'],
       ['1', '0', '0', '.', '5'], ['2'], ['B', 'I', 'D']] := by decide
  have h4 : stodChars ['1', '0', '0', '.', '5'] = some (201 / 2) := by
    rw [stodChars]
    rw [show stodScan ['1', '0', '0', '.', '5']
      = some (false, ['1', '0', '0'], ['5'], 0) from by decide]
    norm_num [decimalValue,
      show digitsToNat ['1', '0', '0', '5'] = 1005 from by decide]
  have h5 : stodChars ['2'] = some 2 := by
    rw [stodChars]
    rw [show stodScan ['2'] = some (false, ['2'], [], 0) from by decide]
    norm_num [decimalValue, show digitsToNat ['2'] = 2 from by decide]
  refine ⟨⟨hlen, C7_parse_line_amended.1 "1|2" hlen⟩, ⟨habc, ?_⟩, hT, ?_⟩
  · exact C7_parse_line_amended.2.1 "1|2|3|UPDATE|abc|2|BID"
      ['1'] ['2'] ['3'] ['U', 'P', 'D', 'A', 'T', 'E']
      ['a', 'b', 'c'] ['2'] ['B', 'I', 'D'] hTb (by decide) (by decide)
      (Or.inr (Or.inr (Or.inr (Or.inl habc))))
  · have := C7_parse_line_amended.2.2 "1|2|3|UPDATE|100.5|2|BID"
      ['1'] ['2'] ['3'] ['U', 'P', 'D', 'A', 'T', 'E']
      ['1', '0', '0', '.', '5'] ['2'] ['B', 'I', 'D'] 1 2 3 (201 / 2) 2
      hT (by decide) (by decide) (by decide) h4 h5 (by decide) (by decide)
      (by norm_num [abs_le]) (Or.inr (by norm_num [le_abs]))
      (by norm_num [abs_le]) (Or.inr (by norm_num [le_abs]))
    simpa using this

/-! ## Claim C9: identifier assignment without clear() -/

/-- C9 (amended): within any sequence of `update_order` calls containing
no `clear()` (which by design restarts the counter at 1), synthetic-order
identifiers are monotonically assigned and never reused: after any such
sequence all identifiers present in the book are pairwise distinct, every
identifier is strictly below the current counter, and the counter never
decreases along the sequence (so an order created later carries a
strictly greater identifier than every identifier already in the book). -/
theorem C9_id_assignment_amended (sym : String) (l1 l2 : List Update) :
    (applyUpdates (OrderBook.init sym) (l1 ++ l2)).allOrderIds.Nodup ∧
    (∀ i ∈ (applyUpdates (OrderBook.init sym) (l1 ++ l2)).allOrderIds,
      i < (applyUpdates (OrderBook.init sym) (l1 ++ l2)).next_order_id) ∧
    (applyUpdates (OrderBook.init sym) l1).next_order_id
      ≤ (applyUpdates (OrderBook.init sym) (l1 ++ l2)).next_order_id := by
  have hInv : ∀ l : List Update, (applyUpdates (OrderBook.init sym) l).idInv := by
    intro l
    induction l using List.reverseRecOn with
    | nil =>
      constructor
      · intro i hi
        simp [applyUpdates, OrderBook.init, OrderBook.allOrderIds,
          OrderBook.allLimits] at hi
      · simp [applyUpdates, OrderBook.init, OrderBook.allOrderIds,
          OrderBook.allLimits]
    | append_singleton l u ih =>
      have hstep : applyUpdates (OrderBook.init sym) (l ++ [u])
          = (applyUpdates (OrderBook.init sym) l).update_order u.price
              u.quantity u.side u.ts := by
        simp [applyUpdates, List.foldl_append]
      rw [hstep]
      exact idInv_update _ ih _ _ _ _
  have hmono : (applyUpdates (OrderBook.init sym) l1).next_order_id
      ≤ (applyUpdates (OrderBook.init sym) (l1 ++ l2)).next_order_id := by
    induction l2 using List.reverseRecOn with
    | nil => simp
    | append_singleton l u ih =>
      have hstep : applyUpdates (OrderBook.init sym) (l1 ++ (l ++ [u]))
          = (applyUpdates (OrderBook.init sym) (l1 ++ l)).update_order u.price
              u.quantity u.side u.ts := by
        rw [← List.append_assoc]
        simp [applyUpdates, List.foldl_append]
      rw [hstep]
      exact le_trans ih (nid_le_update _ _ _ _ _)
  exact ⟨(hInv (l1 ++ l2)).2, (hInv (l1 ++ l2)).1, hmono⟩

/-- Witness for C9 (amended) on the clear-free sequence bid 100 then
bid 101: the two synthetic orders carry the distinct ids 1 and 2, both
below the counter, and the counter grew monotonically. -/
theorem C9_id_assignment_witness :
    (applyUpdates (OrderBook.init "S")
        ([{ price := 100, quantity := 5, side := Side.BID, ts := 0 }] ++
         [{ price := 101, quantity := 7, side := Side.BID, ts := 1 }]) :
        OrderBook).allOrderIds = [2, 1] ∧
    (applyUpdates (OrderBook.init "S")
        ([{ price := 100, quantity := 5, side := Side.BID, ts := 0 }] ++
         [{ price := 101, quantity := 7, side := Side.BID, ts := 1 }]) :
        OrderBook).allOrderIds.Nodup ∧
    1 < (applyUpdates (OrderBook.init "S")
        ([{ price := 100, quantity := 5, side := Side.BID, ts := 0 }] ++
         [{ price := 101, quantity := 7, side := Side.BID, ts := 1 }]) :
        OrderBook).next_order_id ∧
    (applyUpdates (OrderBook.init "S")
        [{ price := 100, quantity := 5, side := Side.BID, ts := 0 }] :
        OrderBook).next_order_id
      ≤ (applyUpdates (OrderBook.init "S")
        ([{ price := 100, quantity := 5, side := Side.BID, ts := 0 }] ++
         [{ price := 101, quantity := 7, side := Side.BID, ts := 1 }]) :
        OrderBook).next_order_id := by
  have hids : (applyUpdates (OrderBook.init "S")
      ([{ price := 100, quantity := 5, side := Side.BID, ts := 0 }] ++
       [{ price := 101, quantity := 7, side := Side.BID, ts := 1 }]) :
      OrderBook).allOrderIds = [2, 1] := by
    norm_num [applyUpdates, OrderBook.init, OrderBook.update_order,
      OrderBook.add_order, addToSide, mapFind, mapInsert,
      Limit.add_synthetic_order, Limit.init, OrderBook.validate_book_integrity,
      OrderBook.get_best_bid, OrderBook.get_best_ask, OrderBook.allOrderIds,
      OrderBook.allLimits, limIds, EPS8, bidBefore, askBefore]
  have hmem : 1 ∈ (applyUpdates (OrderBook.init "S")
      ([{ price := 100, quantity := 5, side := Side.BID, ts := 0 }] ++
       [{ price := 101, quantity := 7, side := Side.BID, ts := 1 }]) :
      OrderBook).allOrderIds := by
    rw [hids]
    simp
  refine ⟨hids, (C9_id_assignment_amended "S" _ _).1, ?_,
    (C9_id_assignment_amended "S"
      [{ price := 100, quantity := 5, side := Side.BID, ts := 0 }]
      [{ price := 101, quantity := 7, side := Side.BID, ts := 1 }]).2.2⟩
  exact (C9_id_assignment_amended "S"
    [{ price := 100, quantity := 5, side := Side.BID, ts := 0 }]
    [{ price := 101, quantity := 7, side := Side.BID, ts := 1 }]).2.1 1 hmem

/-! ## Claim C8: imbalance formula and range -/

/-- C8 (amended): for every book state and depth, `calculate_imbalance`
is exactly 0 when the combined top-depth volume is below `1e-8` and is
otherwise the normalized difference (bid − ask) / (bid + ask); whenever
both depth-truncated side volumes are non-negative (as in any book built
from non-negative-quantity updates) the result lies in `[-1, 1]`. -/
theorem C8_imbalance_amended (b : OrderBook) (depth : Nat) :
    (b.get_total_bid_volume depth + b.get_total_ask_volume depth < EPS8 →
      b.calculate_imbalance depth = 0) ∧
    (¬ b.get_total_bid_volume depth + b.get_total_ask_volume depth < EPS8 →
      b.calculate_imbalance depth
        = (b.get_total_bid_volume depth - b.get_total_ask_volume depth) /
          (b.get_total_bid_volume depth + b.get_total_ask_volume depth)) ∧
    (0 ≤ b.get_total_bid_volume depth → 0 ≤ b.get_total_ask_volume depth →
      -1 ≤ b.calculate_imbalance depth ∧ b.calculate_imbalance depth ≤ 1) := by
  refine ⟨fun h => ?_, fun h => ?_, fun hbv hav => ?_⟩
  · rw [OrderBook.calculate_imbalance, if_pos h]
  · rw [OrderBook.calculate_imbalance, if_neg h]
  · rw [OrderBook.calculate_imbalance]
    by_cases h : b.get_total_bid_volume depth + b.get_total_ask_volume depth < EPS8
    · rw [if_pos h]
      norm_num
    · rw [if_neg h]
      have htv : 0 < b.get_total_bid_volume depth + b.get_total_ask_volume depth := by
        have h8 : (0 : ℚ) < EPS8 := by norm_num [EPS8]
        have := not_lt.mp h
        linarith
      constructor
      · rw [le_div_iff₀ htv]
        linarith
      · rw [div_le_one htv]
        linarith

/-- Witness for C8 (amended) on the empty book at depth 5: the total is
below `1e-8`, the imbalance is 0 and lies in `[-1, 1]`. -/
theorem C8_imbalance_witness :
    ((OrderBook.init "S").get_total_bid_volume 5 +
        (OrderBook.init "S").get_total_ask_volume 5 < EPS8) ∧
    (OrderBook.init "S").calculate_imbalance 5 = 0 ∧
    (-1 ≤ (OrderBook.init "S").calculate_imbalance 5 ∧
      (OrderBook.init "S").calculate_imbalance 5 ≤ 1) := by
  have h0 : (OrderBook.init "S").get_total_bid_volume 5 +
      (OrderBook.init "S").get_total_ask_volume 5 < EPS8 := by
    norm_num [OrderBook.init, OrderBook.get_total_bid_volume,
      OrderBook.get_total_ask_volume, EPS8]
  refine ⟨h0, (C8_imbalance_amended (OrderBook.init "S") 5).1 h0,
    (C8_imbalance_amended (OrderBook.init "S") 5).2.2 ?_ ?_⟩
  · norm_num [OrderBook.init, OrderBook.get_total_bid_volume]
  · norm_num [OrderBook.init, OrderBook.get_total_ask_volume]

/-! ## Claim C10: no strictly crossed state between updates -/

/-- C10: after every `update_order` call on a book reached from the empty
book, whenever both sides are non-empty the best bid does not exceed the
best ask (equality tolerated): a strictly crossed state is repaired
within the same update, so none is observable between updates. -/
theorem C10_never_strictly_crossed (sym : String) (l : List Update) (bb ba : ℚ)
    (hb : (applyUpdates (OrderBook.init sym) l).get_best_bid = some bb)
    (ha : (applyUpdates (OrderBook.init sym) l).get_best_ask = some ba) :
    bb ≤ ba :=
  (reachable_ordered_uncrossed sym l).2 bb ba hb ha

/-- Witness for C10: the two-update sequence ask 100 then bid 99 leaves
best bid 99 ≤ best ask 100. -/
theorem C10_never_strictly_crossed_witness :
    (applyUpdates (OrderBook.init "S")
        [{ price := 100, quantity := 5, side := Side.ASK, ts := 0 },
         { price := 99, quantity := 5, side := Side.BID, ts := 1 }]).get_best_bid
      = some 99 ∧
    (applyUpdates (OrderBook.init "S")
        [{ price := 100, quantity := 5, side := Side.ASK, ts := 0 },
         { price := 99, quantity := 5, side := Side.BID, ts := 1 }]).get_best_ask
      = some 100 ∧
    (99 : ℚ) ≤ 100 := by
  have hb : (applyUpdates (OrderBook.init "S")
      [{ price := 100, quantity := 5, side := Side.ASK, ts := 0 },
       { price := 99, quantity := 5, side := Side.BID, ts := 1 }]).get_best_bid
      = some 99 := by
    norm_num [applyUpdates, OrderBook.init, OrderBook.update_order,
      OrderBook.add_order, addToSide, mapFind, mapInsert, Limit.add_synthetic_order,
      Limit.init, OrderBook.validate_book_integrity, OrderBook.get_best_bid,
      OrderBook.get_best_ask, EPS8, bidBefore, askBefore]
  have ha : (applyUpdates (OrderBook.init "S")
      [{ price := 100, quantity := 5, side := Side.ASK, ts := 0 },
       { price := 99, quantity := 5, side := Side.BID, ts := 1 }]).get_best_ask
      = some 100 := by
    norm_num [applyUpdates, OrderBook.init, OrderBook.update_order,
      OrderBook.add_order, addToSide, mapFind, mapInsert, Limit.add_synthetic_order,
      Limit.init, OrderBook.validate_book_integrity, OrderBook.get_best_bid,
      OrderBook.get_best_ask, EPS8, bidBefore, askBefore]
  exact ⟨hb, ha, C10_never_strictly_crossed "S" _ 99 100 hb ha⟩

end lob
